import Mathlib

/-!
Verification of the cosdata lazy-load graph model and its chunked binary
serializer.

The development shallowly embeds the Rust sources:
* `src/models/serializer/lazy_item_map.rs` — `LazyItemMap::serialize`,
  `LazyItemMap::deserialize` and the `CustomSerialize` impl for
  `IdentityMapKey`;
* `src/models/lazy_load.rs` — `LazyItem`, `LazyItemRef`, identity;
* `src/models/types.rs` — `MergedNode`, `NodeProp`, `PropState`, hashing;
* `src/api_service.rs` — `init_vector_store`, `run_upload` control flow.

The writer is modelled as a byte store (`Nat → Nat`, always kept below 256
at written positions) together with a cursor position, mirroring
`Cursor<Vec<u8>>` with `byteorder::LittleEndian` writes and the
seek-back-and-patch protocol used by the serializer.
-/

namespace Cosdata

/-- The sentinel `u32::MAX`: absent slot / end-of-chain. -/
def U32MAX : Nat := 4294967295

/-- `const MSB: u32 = 1 << 31` from `lazy_item_map.rs`. -/
def MSB : Nat := 2147483648

/-- Writer state: the byte store and the stream position, modelling a
`Cursor<Vec<u8>>` (unwritten positions read as 0, matching the zero-fill
behaviour of a grown vector). -/
structure WState where
  bytes : Nat → Nat
  pos : Nat

/-- Write one byte at the cursor and advance. Stored values are reduced
mod 256 because the store models `u8` cells. -/
def writeByte (b : Nat) (w : WState) : WState :=
  ⟨fun i => if i = w.pos then b % 256 else w.bytes i, w.pos + 1⟩

/-- `write_u32::<LittleEndian>`: low byte first. -/
def writeU32 (x : Nat) (w : WState) : WState :=
  writeByte (x / 16777216) (writeByte (x / 65536) (writeByte (x / 256) (writeByte x w)))

/-- `seek(SeekFrom::Start(p))`. -/
def seekTo (p : Nat) (w : WState) : WState :=
  ⟨w.bytes, p⟩

/-- `write_all(&bytes)`. -/
def writeBytes (bs : List Nat) (w : WState) : WState :=
  bs.foldl (fun st b => writeByte b st) w

/-- `read_u32::<LittleEndian>` at position `p` of byte store `B`. -/
def readU32 (B : Nat → Nat) (p : Nat) : Nat :=
  B p + 256 * B (p + 1) + 65536 * B (p + 2) + 16777216 * B (p + 3)

/-- `read_exact` of `len` bytes starting at `p`. -/
def readBytes (B : Nat → Nat) (p len : Nat) : List Nat :=
  (List.range len).map (fun t => B (p + t))

theorem writeByte_pos (b : Nat) (w : WState) : (writeByte b w).pos = w.pos + 1 := rfl

theorem writeByte_bytes_ne (b : Nat) (w : WState) (i : Nat) (h : i ≠ w.pos) :
    (writeByte b w).bytes i = w.bytes i := by
  simp [writeByte, h]

theorem writeByte_bytes_eq (b : Nat) (w : WState) :
    (writeByte b w).bytes w.pos = b % 256 := by
  simp [writeByte]

theorem writeU32_pos (x : Nat) (w : WState) : (writeU32 x w).pos = w.pos + 4 := rfl

theorem writeU32_frame (x : Nat) (w : WState) (i : Nat)
    (h : i < w.pos ∨ w.pos + 4 ≤ i) :
    (writeU32 x w).bytes i = w.bytes i := by
  unfold writeU32
  rw [writeByte_bytes_ne, writeByte_bytes_ne, writeByte_bytes_ne, writeByte_bytes_ne] <;>
    simp [writeByte_pos] <;> omega

theorem readU32_writeU32 (x : Nat) (w : WState) :
    readU32 (writeU32 x w).bytes w.pos = x % 4294967296 := by
  simp [readU32, writeU32, writeByte, Nat.add_assoc, Nat.self_eq_add_right]
  omega

/-- Reading depends only on the four bytes read. -/
theorem readU32_congr (B C : Nat → Nat) (p : Nat)
    (h : ∀ i, p ≤ i → i < p + 4 → B i = C i) : readU32 B p = readU32 C p := by
  unfold readU32
  rw [h p (by omega) (by omega), h (p + 1) (by omega) (by omega),
    h (p + 2) (by omega) (by omega), h (p + 3) (by omega) (by omega)]

theorem readBytes_congr (B C : Nat → Nat) (p len : Nat)
    (h : ∀ i, p ≤ i → i < p + len → B i = C i) : readBytes B p len = readBytes C p len := by
  unfold readBytes
  apply List.map_congr_left
  intro t ht
  rw [List.mem_range] at ht
  exact h (p + t) (by omega) (by omega)

theorem writeBytes_pos (bs : List Nat) (w : WState) :
    (writeBytes bs w).pos = w.pos + bs.length := by
  induction bs generalizing w with
  | nil => simp [writeBytes]
  | cons b rest ih =>
    show (writeBytes rest (writeByte b w)).pos = w.pos + (b :: rest).length
    rw [ih]
    simp [writeByte_pos]
    omega

theorem writeBytes_frame (bs : List Nat) (w : WState) (i : Nat)
    (h : i < w.pos ∨ w.pos + bs.length ≤ i) :
    (writeBytes bs w).bytes i = w.bytes i := by
  induction bs generalizing w with
  | nil => rfl
  | cons b rest ih =>
    show (writeBytes rest (writeByte b w)).bytes i = w.bytes i
    rw [ih]
    · apply writeByte_bytes_ne
      simp at h
      omega
    · simp [writeByte_pos]
      simp at h
      omega

theorem writeBytes_content (bs : List Nat) (w : WState) (t : Nat) (ht : t < bs.length) :
    (writeBytes bs w).bytes (w.pos + t) = bs[t] % 256 := by
  induction bs generalizing w t with
  | nil => simp at ht
  | cons b rest ih =>
    show (writeBytes rest (writeByte b w)).bytes (w.pos + t) = _
    cases t with
    | zero =>
      rw [writeBytes_frame]
      · simpa using writeByte_bytes_eq b w
      · simp [writeByte_pos]
    | succ t2 =>
      have h2 := ih (writeByte b w) t2 (by simpa using Nat.lt_of_succ_lt_succ ht)
      rw [writeByte_pos] at h2
      rw [show w.pos + (t2 + 1) = w.pos + 1 + t2 by omega, h2]
      simp

/-- Is `c` a UTF-8 continuation byte? -/
def utf8Cont (c : Nat) : Bool :=
  decide (128 ≤ c ∧ c ≤ 191)

/-- Validity check performed by `String::from_utf8` (exact UTF-8: rejects
overlong forms, surrogates and values beyond U+10FFFF). The round-trip
proofs only pass this through, since bytes produced by a Rust `String`
are valid by construction. -/
def utf8Valid : List Nat → Bool
  | [] => true
  | b :: rest =>
    if b < 128 then utf8Valid rest
    else if 194 ≤ b ∧ b ≤ 223 then
      match rest with
      | c1 :: r2 => utf8Cont c1 && utf8Valid r2
      | [] => false
    else if b = 224 then
      match rest with
      | c1 :: c2 :: r2 => decide (160 ≤ c1 ∧ c1 ≤ 191) && utf8Cont c2 && utf8Valid r2
      | _ => false
    else if 225 ≤ b ∧ b ≤ 236 then
      match rest with
      | c1 :: c2 :: r2 => utf8Cont c1 && utf8Cont c2 && utf8Valid r2
      | _ => false
    else if b = 237 then
      match rest with
      | c1 :: c2 :: r2 => decide (128 ≤ c1 ∧ c1 ≤ 159) && utf8Cont c2 && utf8Valid r2
      | _ => false
    else if 238 ≤ b ∧ b ≤ 239 then
      match rest with
      | c1 :: c2 :: r2 => utf8Cont c1 && utf8Cont c2 && utf8Valid r2
      | _ => false
    else if b = 240 then
      match rest with
      | c1 :: c2 :: c3 :: r2 =>
        decide (144 ≤ c1 ∧ c1 ≤ 191) && utf8Cont c2 && utf8Cont c3 && utf8Valid r2
      | _ => false
    else if 241 ≤ b ∧ b ≤ 243 then
      match rest with
      | c1 :: c2 :: c3 :: r2 => utf8Cont c1 && utf8Cont c2 && utf8Cont c3 && utf8Valid r2
      | _ => false
    else if b = 244 then
      match rest with
      | c1 :: c2 :: c3 :: r2 =>
        decide (128 ≤ c1 ∧ c1 ≤ 143) && utf8Cont c2 && utf8Cont c3 && utf8Valid r2
      | _ => false
    else false

/-- Modelled from the spec: `IdentityMapKey` lives in
`models/identity_collections.rs`, which is not among the supplied sources;
its shape is fixed by the serializer in `lazy_item_map.rs` (a `String`
variant holding UTF-8 bytes and an `Int` variant holding a `u32`) and by
the spec's identity-map key format. -/
inductive IdentityMapKey where
  | String (bytes : List Nat) : IdentityMapKey
  | Int (n : Nat) : IdentityMapKey
deriving DecidableEq, Repr

/-- Number of bytes the key serializer emits. -/
def IdentityMapKey.keyLen : IdentityMapKey → Nat
  | .String bs => 4 + bs.length
  | .Int _ => 4

/-- `CustomSerialize::serialize` for `IdentityMapKey`
(`lazy_item_map.rs` lines 127-141): record the start position, then for a
string write `MSB | len` followed by the raw bytes, for an int write the
plain `u32`; return the start. -/
def IdentityMapKey.serialize (k : IdentityMapKey) (w : WState) : Nat × WState :=
  let start := w.pos % 4294967296
  match k with
  | .String bs => (start, writeBytes bs (writeU32 (MSB ||| bs.length % 4294967296) w))
  | .Int n => (start, writeU32 n w)

/-- `CustomSerialize::deserialize` for `IdentityMapKey`
(`lazy_item_map.rs` lines 143-172): read a `u32`; MSB clear means the int
variant, MSB set means a string whose length is the low 31 bits
(`(num << 1) >> 1`), followed by that many bytes which must be valid
UTF-8. Also returns the reader position after the key, which the map
deserializer relies on. -/
def IdentityMapKey.deserialize (B : Nat → Nat) (offset : Nat) :
    Option (IdentityMapKey × Nat) :=
  let num := readU32 B offset
  if num &&& MSB = 0 then some (.Int num, offset + 4)
  else
    let len := ((num <<< 1) % 4294967296) >>> 1
    let bs := readBytes B (offset + 4) len
    if utf8Valid bs then some (.String bs, offset + 4 + len) else none

/-- Representation invariant keys coming from Rust satisfy: a string key
holds valid UTF-8 bytes (each below 256) of length below `2^31`; an int
key below `2^31` (MSB clear) — an int with the MSB set is expressible in
the Rust type but cannot round-trip. -/
def IdentityMapKey.wellFormed : IdentityMapKey → Prop
  | .String bs => utf8Valid bs = true ∧ bs.length < 2147483648 ∧ ∀ b ∈ bs, b < 256
  | .Int n => n < 2147483648

instance : (k : IdentityMapKey) → Decidable k.wellFormed
  | .String bs =>
    show Decidable (utf8Valid bs = true ∧ bs.length < 2147483648 ∧ ∀ b ∈ bs, b < 256) from
      inferInstance
  | .Int n => show Decidable (n < 2147483648) from inferInstance

theorem lor_MSB_eq_add (len : Nat) (h : len < 2147483648) : MSB ||| len = MSB + len := by
  show 2147483648 ||| len = 2147483648 + len
  apply Nat.eq_of_testBit_eq
  intro i
  have hp : Nat.testBit 2147483648 i = decide (31 = i) := by
    have h2 : (2147483648 : Nat) = 2 ^ 31 := by norm_num
    rw [h2, Nat.testBit_two_pow]
  have hs : Nat.testBit (2147483648 + len) i
      = if i < 31 then len.testBit i else Nat.testBit 1 (i - 31) := by
    have h2 : (2147483648 : Nat) + len = 2 ^ 31 * 1 + len := by norm_num
    rw [h2, Nat.testBit_mul_pow_two_add 1 h i]
  rw [Nat.testBit_lor, hp, hs]
  rcases lt_trichotomy i 31 with hi | hi | hi
  · have h3 : (31 = i) = False := by simp; omega
    simp [h3, hi]
  · subst hi
    have h1 : Nat.testBit len 31 = false := Nat.testBit_lt_two_pow h
    simp [h1]
  · have h1 : Nat.testBit len i = false :=
      Nat.testBit_lt_two_pow
        (lt_of_lt_of_le h (Nat.pow_le_pow_right (show 0 < 2 by norm_num) (le_of_lt hi)))
    have h2 : Nat.testBit 1 (i - 31) = false := by
      apply Nat.testBit_lt_two_pow
      have h3 : 1 ≤ i - 31 := by omega
      calc 1 < 2 ^ 1 := by norm_num
        _ ≤ 2 ^ (i - 31) := Nat.pow_le_pow_right (show 0 < 2 by norm_num) h3
    have h4 : (31 = i) = False := by simp; omega
    simp [h1, h2, h4]

theorem land_MSB_of_add (len : Nat) (h : len < 2147483648) :
    (2147483648 + len) &&& MSB = 2147483648 := by
  show _ &&& 2147483648 = _
  have ht : (2147483648 + len).testBit 31 = true := by
    simp [Nat.testBit, Nat.shiftRight_eq_div_pow]
    omega
  have h2 := Nat.and_two_pow (2147483648 + len) 31
  norm_num at h2 ⊢
  rw [h2, ht]
  norm_num

theorem land_MSB_of_lt (n : Nat) (h : n < 2147483648) : n &&& MSB = 0 := by
  show n &&& 2147483648 = 0
  have ht : n.testBit 31 = false := by
    simp [Nat.testBit, Nat.shiftRight_eq_div_pow]
    omega
  have h2 := Nat.and_two_pow n 31
  norm_num at h2 ⊢
  rw [h2, ht]
  norm_num

theorem readBytes_writeBytes (bs : List Nat) (w : WState) (hb : ∀ b ∈ bs, b < 256) :
    readBytes (writeBytes bs w).bytes w.pos bs.length = bs := by
  apply List.ext_getElem (by simp [readBytes])
  intro i h1 h2
  have h3 : i < bs.length := h2
  unfold readBytes
  rw [List.getElem_map, List.getElem_range]
  rw [writeBytes_content bs w i h3]
  exact Nat.mod_eq_of_lt (hb bs[i] (List.getElem_mem h3))

theorem key_serialize_pos (k : IdentityMapKey) (w : WState) :
    ((k.serialize w).2).pos = w.pos + k.keyLen := by
  cases k with
  | String bs =>
    show (writeBytes bs (writeU32 _ w)).pos = _
    rw [writeBytes_pos, writeU32_pos, IdentityMapKey.keyLen]
    omega
  | Int n =>
    show (writeU32 n w).pos = _
    rw [writeU32_pos, IdentityMapKey.keyLen]

theorem key_serialize_frame (k : IdentityMapKey) (w : WState) (i : Nat)
    (h : i < w.pos ∨ w.pos + k.keyLen ≤ i) :
    ((k.serialize w).2).bytes i = w.bytes i := by
  cases k with
  | String bs =>
    show (writeBytes bs (writeU32 _ w)).bytes i = _
    rw [writeBytes_frame, writeU32_frame]
    · simp [IdentityMapKey.keyLen] at h
      omega
    · simp [IdentityMapKey.keyLen] at h
      rw [writeU32_pos]
      omega
  | Int n =>
    show (writeU32 n w).bytes i = _
    apply writeU32_frame
    simp [IdentityMapKey.keyLen] at h
    omega

theorem key_serialize_fst (k : IdentityMapKey) (w : WState) (h : w.pos < 4294967296) :
    (k.serialize w).1 = w.pos := by
  cases k <;> exact Nat.mod_eq_of_lt h

/-- Core key round-trip: deserializing from any byte store that agrees with
the writer output on the key's extent yields the key back, together with
the position just past it. -/
theorem key_roundtrip (k : IdentityMapKey) (w : WState) (hwf : k.wellFormed)
    (B : Nat → Nat)
    (hag : ∀ i, w.pos ≤ i → i < w.pos + k.keyLen → B i = ((k.serialize w).2).bytes i) :
    IdentityMapKey.deserialize B w.pos = some (k, w.pos + k.keyLen) := by
  cases k with
  | Int n =>
    have hn : n < 2147483648 := hwf
    have hr : readU32 B w.pos = n := by
      rw [readU32_congr B ((IdentityMapKey.Int n).serialize w).2.bytes w.pos
        (fun i h1 h2 => hag i h1 (by simp [IdentityMapKey.keyLen]; omega))]
      show readU32 (writeU32 n w).bytes w.pos = n
      rw [readU32_writeU32]
      omega
    simp only [IdentityMapKey.deserialize]
    rw [hr, land_MSB_of_lt n hn]
    simp [IdentityMapKey.keyLen]
  | String bs =>
    obtain ⟨hv, hl, hb⟩ := hwf
    have hlen : bs.length % 4294967296 = bs.length := by omega
    have hr : readU32 B w.pos = 2147483648 + bs.length := by
      rw [readU32_congr B ((IdentityMapKey.String bs).serialize w).2.bytes w.pos
        (fun i h1 h2 => hag i h1 (by simp [IdentityMapKey.keyLen]; omega))]
      show readU32 (writeBytes bs (writeU32 (MSB ||| bs.length % 4294967296) w)).bytes
          w.pos = _
      rw [readU32_congr _ (writeU32 (MSB ||| bs.length % 4294967296) w).bytes w.pos
        (fun i h1 h2 => writeBytes_frame _ _ _ (by rw [writeU32_pos]; omega))]
      rw [readU32_writeU32, hlen, lor_MSB_eq_add bs.length hl]
      show (2147483648 + bs.length) % 4294967296 = _
      omega
    have hmask : readU32 B w.pos &&& MSB ≠ 0 := by
      rw [hr, land_MSB_of_add bs.length hl]
      simp [MSB]
    have hshift : ((readU32 B w.pos <<< 1) % 4294967296) >>> 1 = bs.length := by
      rw [hr, Nat.shiftLeft_eq, Nat.shiftRight_eq_div_pow]
      norm_num
      omega
    have hread : readBytes B (w.pos + 4) bs.length = bs := by
      rw [readBytes_congr B ((IdentityMapKey.String bs).serialize w).2.bytes (w.pos + 4)
        bs.length
        (fun i h1 h2 => hag i (by omega) (by simp [IdentityMapKey.keyLen]; omega))]
      show readBytes (writeBytes bs (writeU32 (MSB ||| bs.length % 4294967296) w)).bytes
          (w.pos + 4) bs.length = bs
      have h4 : w.pos + 4 = (writeU32 (MSB ||| bs.length % 4294967296) w).pos := by
        rw [writeU32_pos]
      rw [h4, readBytes_writeBytes bs _ hb]
    simp only [IdentityMapKey.deserialize]
    rw [if_neg hmask, hshift, hread, if_pos hv]
    simp [IdentityMapKey.keyLen]
    omega

theorem key_serialize_readU32_string (bs : List Nat) (w : WState)
    (hl : bs.length < 2147483648) :
    readU32 (((IdentityMapKey.String bs).serialize w).2).bytes w.pos = MSB + bs.length := by
  show readU32 (writeBytes bs (writeU32 (MSB ||| bs.length % 4294967296) w)).bytes w.pos = _
  rw [readU32_congr _ (writeU32 (MSB ||| bs.length % 4294967296) w).bytes w.pos
    (fun i h1 h2 => writeBytes_frame _ _ _ (by rw [writeU32_pos]; omega))]
  rw [readU32_writeU32]
  have hlen : bs.length % 4294967296 = bs.length := by omega
  rw [hlen, lor_MSB_eq_add bs.length hl]
  show (2147483648 + bs.length) % 4294967296 = 2147483648 + bs.length
  omega

theorem key_serialize_readU32_int (n : Nat) (w : WState) (hn : n < 4294967296) :
    readU32 (((IdentityMapKey.Int n).serialize w).2).bytes w.pos = n := by
  show readU32 (writeU32 n w).bytes w.pos = n
  rw [readU32_writeU32]
  omega

/-- C2 (amended): for a well-formed key — an `Int` below `2^31` (MSB clear)
or a `String` of UTF-8 byte length below `2^31` — serialize returns the
start offset and deserialize at it yields an equal key; a string is
written as one `u32` with the MSB set and the low 31 bits holding the byte
length, followed by the raw bytes, while an int is written as the plain
`u32`, and deserialize discriminates on the MSB of the first `u32` read.
An `Int` key with the MSB set does not round-trip (see the
counterexample), which forces the well-formedness restriction. -/
theorem identityMapKey_serialize_roundtrip (k : IdentityMapKey) (w : WState)
    (hwf : k.wellFormed) (hsz : w.pos + 4 ≤ 4294967296) :
    (k.serialize w).1 = w.pos ∧
    IdentityMapKey.deserialize ((k.serialize w).2).bytes w.pos
      = some (k, w.pos + k.keyLen) ∧
    (∀ bs, k = IdentityMapKey.String bs →
      readU32 ((k.serialize w).2).bytes w.pos = MSB + bs.length) ∧
    (∀ n, k = IdentityMapKey.Int n → readU32 ((k.serialize w).2).bytes w.pos = n) := by
  refine ⟨key_serialize_fst k w (by omega),
    key_roundtrip k w hwf ((k.serialize w).2).bytes (fun i h1 h2 => rfl), ?_, ?_⟩
  · intro bs hk
    subst hk
    exact key_serialize_readU32_string bs w hwf.2.1
  · intro n hk
    subst hk
    have hn : n < 2147483648 := hwf
    exact key_serialize_readU32_int n w (by omega)

/-- C2 counterexample: the representable key `Int(2^31)` serializes to the
u32 `0x80000000`, which deserialize misreads (MSB set) as a zero-length
string: the round-trip returns `String("")`, not the original key. -/
theorem identityMapKey_roundtrip_cex :
    IdentityMapKey.deserialize
        (((IdentityMapKey.Int 2147483648).serialize ⟨fun _ => 0, 0⟩).2).bytes
        (((IdentityMapKey.Int 2147483648).serialize ⟨fun _ => 0, 0⟩).1)
      = some (IdentityMapKey.String [], 4) ∧
    IdentityMapKey.String [] ≠ IdentityMapKey.Int 2147483648 := by
  constructor
  · decide
  · decide

/-- C2 witness: the round-trip theorem applied to the concrete string key
`"hi"` (bytes `[104, 105]`) on a fresh writer. -/
theorem identityMapKey_serialize_roundtrip_witness :
    ((IdentityMapKey.String [104, 105]).wellFormed ∧ (0 : Nat) + 4 ≤ 4294967296) ∧
    ((IdentityMapKey.String [104, 105]).serialize ⟨fun _ => 0, 0⟩).1 = 0 ∧
    IdentityMapKey.deserialize
        (((IdentityMapKey.String [104, 105]).serialize ⟨fun _ => 0, 0⟩).2).bytes 0
      = some (IdentityMapKey.String [104, 105],
          0 + (IdentityMapKey.String [104, 105]).keyLen) :=
  ⟨⟨by decide, by decide⟩,
    (identityMapKey_serialize_roundtrip (IdentityMapKey.String [104, 105])
      ⟨fun _ => 0, 0⟩ (by decide) (by decide)).1,
    (identityMapKey_serialize_roundtrip (IdentityMapKey.String [104, 105])
      ⟨fun _ => 0, 0⟩ (by decide) (by decide)).2.1⟩

/-- `LazyItem` from `lazy_load.rs` (lines 13-21). `Item<T>` (an ArcShift
cell) is modelled by its current contents, so `data: Option<Item<T>>`
becomes `Option T` and `offset: Item<Option<FileOffset>>` becomes
`Option Nat`. -/
inductive LazyItem (T : Type) where
  | Valid (data : Option T) (offset : Option Nat) (decay_counter : Nat) : LazyItem T
  | Invalid : LazyItem T
deriving DecidableEq

/-- `LazyItemId` from `lazy_load.rs` (lines 29-33). -/
inductive LazyItemId where
  | Memory (h : Nat) : LazyItemId
  | Persist (o : Nat) : LazyItemId
deriving DecidableEq, Repr

/-- `Identifiable for LazyItem<T>` (`lazy_load.rs` lines 41-54),
parametrized by the 64-bit identity function of `T`
(`T: Identifiable<Id = u64>`): a known offset wins, then resident data,
otherwise the sentinel `Persist(u32::MAX)`. -/
def LazyItem.get_id {T : Type} (idOf : T → Nat) : LazyItem T → LazyItemId
  | .Valid data offset _ =>
    match offset with
    | some o => .Persist o
    | none =>
      match data with
      | some d => .Memory (idOf d)
      | none => .Persist U32MAX
  | .Invalid => .Persist U32MAX

/-- `LazyItem::new` (`lazy_load.rs` lines 100-106). -/
def LazyItem.new {T : Type} (item : T) : LazyItem T := .Valid (some item) none 0

/-- `LazyItem::new_invalid` (`lazy_load.rs` lines 108-110). -/
def LazyItem.new_invalid {T : Type} : LazyItem T := .Invalid

/-- `LazyItem::from_data` (`lazy_load.rs` lines 112-118). -/
def LazyItem.from_data {T : Type} (data : T) : LazyItem T := .Valid (some data) none 0

/-- `LazyItem::from_item` (`lazy_load.rs` lines 120-126). -/
def LazyItem.from_item {T : Type} (item : T) : LazyItem T := .Valid (some item) none 0

/-- Modelled from the spec: `from_offset(offset)` is listed among the lazy
cell operations in §4.1 but no such constructor appears in `lazy_load.rs`;
per the spec it builds an offset-only (pending) cell. -/
def LazyItem.from_offset {T : Type} (offset : Nat) : LazyItem T :=
  .Valid none (some offset) 0

/-- `LazyItem::set_data` (`lazy_load.rs` lines 143-147): only a `Valid`
item is mutated. -/
def LazyItem.set_data {T : Type} (new_data : T) : LazyItem T → LazyItem T
  | .Valid _ offset decay => .Valid (some new_data) offset decay
  | .Invalid => .Invalid

/-- `LazyItem::set_offset` (`lazy_load.rs` lines 156-160): only a `Valid`
item is mutated. -/
def LazyItem.set_offset {T : Type} (new_offset : Option Nat) : LazyItem T → LazyItem T
  | .Valid data _ decay => .Valid data new_offset decay
  | .Invalid => .Invalid

/-- `LazyItemRef::set_data` (`lazy_load.rs` lines 214-234): the rcu closure
replaces the referenced item outright; an `Invalid` item contributes
offset `None` and decay 0. -/
def LazyItemRef.set_data {T : Type} (new_data : T) (item : LazyItem T) : LazyItem T :=
  match item with
  | .Valid _ offset decay => .Valid (some new_data) offset decay
  | .Invalid => .Valid (some new_data) none 0

/-- `LazyItemRef::set_offset` (`lazy_load.rs` lines 236-256): the rcu
closure replaces the referenced item outright; an `Invalid` item
contributes data `None` and decay 0. -/
def LazyItemRef.set_offset {T : Type} (new_offset : Option Nat) (item : LazyItem T) :
    LazyItem T :=
  match item with
  | .Valid data _ decay => .Valid data new_offset decay
  | .Invalid => .Valid none new_offset 0

/-- Invariant 2 of the spec: a `Valid` item has data or an offset. -/
def LazyItem.validPopulated {T : Type} : LazyItem T → Prop
  | .Valid data offset _ => data.isSome = true ∨ offset.isSome = true
  | .Invalid => True

/-- Modelled from the spec: `IdentitySet::insert`
(`identity_collections.rs` is not among the sources): dedup-on-insert by
`get_id`, preserving insertion order. -/
def IdentitySet.insert {T : Type} (idOf : T → Nat) (s : List (LazyItem T))
    (x : LazyItem T) : List (LazyItem T) :=
  if s.any (fun y => decide (y.get_id idOf = x.get_id idOf)) then s else s ++ [x]

/-- C4 counterexample: `LazyItemRef::set_offset(None)` applied to an
`Invalid` ref produces `Valid { data: None, offset: None }`, which
violates the populated-Valid invariant the claim asserts is preserved by
every mutation in any state. -/
theorem lazyItem_invariant_cex :
    LazyItemRef.set_offset none (LazyItem.Invalid : LazyItem Nat)
        = LazyItem.Valid none none 0 ∧
    ¬ (LazyItemRef.set_offset none (LazyItem.Invalid : LazyItem Nat)).validPopulated := by
  constructor
  · rfl
  · simp [LazyItemRef.set_offset, LazyItem.validPopulated]

/-- C4 (amended): every constructor (`new`, `new_invalid`, `from_data`,
`from_item`, `from_offset`) establishes the populated-Valid invariant;
`LazyItem::set_data` / `set_offset(Some _)` and `LazyItemRef::set_data`
preserve it in any state, and `LazyItemRef::set_offset` preserves it when
the new offset is `Some` or when the item carries resident data — but
`LazyItemRef::set_offset(None)` on an item without resident data yields
`Valid { data: None, offset: None }`, breaking it (see counterexample). -/
theorem lazyItem_invariant_preserved (T : Type) (x : T) (it : LazyItem T) (o : Nat)
    (oo : Option Nat) :
    (LazyItem.new x).validPopulated ∧
    (LazyItem.new_invalid : LazyItem T).validPopulated ∧
    (LazyItem.from_data x).validPopulated ∧
    (LazyItem.from_item x).validPopulated ∧
    (LazyItem.from_offset o : LazyItem T).validPopulated ∧
    (it.validPopulated → (LazyItem.set_data x it).validPopulated) ∧
    (it.validPopulated → (LazyItem.set_offset (some o) it).validPopulated) ∧
    (LazyItemRef.set_data x it).validPopulated ∧
    (LazyItemRef.set_offset (some o) it).validPopulated ∧
    (∀ d off dec, it = LazyItem.Valid (some d) off dec →
      (LazyItemRef.set_offset oo it).validPopulated) := by
  refine ⟨Or.inl rfl, trivial, Or.inl rfl, Or.inl rfl, ?_, ?_, ?_, ?_, ?_, ?_⟩
  · simp [LazyItem.from_offset, LazyItem.validPopulated]
  · intro h
    cases it <;> simp [LazyItem.set_data, LazyItem.validPopulated]
  · intro h
    cases it <;> simp [LazyItem.set_offset, LazyItem.validPopulated]
  · cases it <;> simp [LazyItemRef.set_data, LazyItem.validPopulated]
  · cases it <;> simp [LazyItemRef.set_offset, LazyItem.validPopulated]
  · intro d off dec h
    subst h
    simp [LazyItemRef.set_offset, LazyItem.validPopulated]

/-- C4 witness: the amended invariant theorem at a concrete valid item. -/
theorem lazyItem_invariant_preserved_witness :
    (LazyItem.new (1 : Nat)).validPopulated ∧
    (LazyItem.new_invalid : LazyItem Nat).validPopulated ∧
    (LazyItem.from_data (0 : Nat)).validPopulated ∧
    (LazyItem.from_item (0 : Nat)).validPopulated ∧
    (LazyItem.from_offset 5 : LazyItem Nat).validPopulated ∧
    ((LazyItem.new (1 : Nat)).validPopulated →
      (LazyItem.set_data 0 (LazyItem.new (1 : Nat))).validPopulated) ∧
    ((LazyItem.new (1 : Nat)).validPopulated →
      (LazyItem.set_offset (some 5) (LazyItem.new (1 : Nat))).validPopulated) ∧
    (LazyItemRef.set_data 0 (LazyItem.new (1 : Nat))).validPopulated ∧
    (LazyItemRef.set_offset (some 5) (LazyItem.new (1 : Nat))).validPopulated ∧
    (∀ d off dec, LazyItem.new (1 : Nat) = LazyItem.Valid (some d) off dec →
      (LazyItemRef.set_offset none (LazyItem.new (1 : Nat))).validPopulated) :=
  lazyItem_invariant_preserved Nat 0 (LazyItem.new 1) 5 none

/-- C5: on a `Valid` item, `get_id` is `Persist o` whenever the offset
cell holds `Some o` (even with resident data), and `Memory (idOf d)` when
the offset is `None` and data `Some d`; items with equal ids collapse to
one slot under identity-set insertion. -/
theorem lazyItem_get_id_spec (T : Type) (idOf : T → Nat) (data : Option T) (d : T)
    (o decay : Nat) :
    (LazyItem.Valid data (some o) decay).get_id idOf = LazyItemId.Persist o ∧
    (LazyItem.Valid (some d) none decay).get_id idOf = LazyItemId.Memory (idOf d) ∧
    ∀ x y : LazyItem T, x.get_id idOf = y.get_id idOf →
      (IdentitySet.insert idOf (IdentitySet.insert idOf [] x) y).length = 1 := by
  refine ⟨rfl, rfl, ?_⟩
  intro x y hxy
  simp [IdentitySet.insert, hxy]

/-- C5 witness: the identity theorem at concrete items; the collapse
clause applied to an offset-bearing and a data-bearing item with the same
id. -/
theorem lazyItem_get_id_spec_witness :
    (LazyItem.Valid (some 3) (some 7) 0).get_id (fun n : Nat => n)
        = LazyItemId.Persist 7 ∧
    (LazyItem.Valid (some 3) none 0).get_id (fun n : Nat => n)
        = LazyItemId.Memory 3 ∧
    ((LazyItem.Valid (some 9) (some 7) 0).get_id (fun n : Nat => n)
        = (LazyItem.Valid (some 4) (some 7) 1).get_id (fun n : Nat => n) ∧
      (IdentitySet.insert (fun n : Nat => n)
          (IdentitySet.insert (fun n : Nat => n) [] (LazyItem.Valid (some 9) (some 7) 0))
          (LazyItem.Valid (some 4) (some 7) 1)).length = 1) :=
  ⟨(lazyItem_get_id_spec Nat (fun n => n) (some 3) 3 7 0).1,
    (lazyItem_get_id_spec Nat (fun n => n) (some 3) 3 7 0).2.1,
    by decide,
    (lazyItem_get_id_spec Nat (fun n => n) (some 3) 3 7 0).2.2
      (LazyItem.Valid (some 9) (some 7) 0) (LazyItem.Valid (some 4) (some 7) 1)
      (by decide)⟩

theorem foldl_insert_singleton {T : Type} (idOf : T → Nat) (l : List (LazyItem T))
    (acc : List (LazyItem T)) (a : LazyItem T)
    (hacc : acc = [a]) (hid : a.get_id idOf = LazyItemId.Persist U32MAX)
    (hall : ∀ x ∈ l, x.get_id idOf = LazyItemId.Persist U32MAX) :
    l.foldl (IdentitySet.insert idOf) acc = [a] := by
  induction l generalizing acc with
  | nil => simpa using hacc
  | cons h t ih =>
    have hins : IdentitySet.insert idOf acc h = [a] := by
      subst hacc
      simp [IdentitySet.insert, hid, hall h (by simp)]
    show t.foldl (IdentitySet.insert idOf) (IdentitySet.insert idOf acc h) = [a]
    exact ih _ hins (fun x hx => hall x (by simp [hx]))

/-- C10: `Invalid` items and empty `Valid` items (no data, no offset) all
get identity `Persist(u32::MAX)`; inserting any nonempty collection of
such items into an identity set collapses to a single slot, so the
sentinel `u32::MAX` does occur as an identity key. -/
theorem lazyItem_invalid_identity (T : Type) (idOf : T → Nat) (decay : Nat)
    (l : List (LazyItem T)) (hl : l ≠ [])
    (hall : ∀ x ∈ l, x.get_id idOf = LazyItemId.Persist U32MAX) :
    (LazyItem.Invalid : LazyItem T).get_id idOf = LazyItemId.Persist U32MAX ∧
    (LazyItem.Valid none none decay).get_id idOf = LazyItemId.Persist U32MAX ∧
    (l.foldl (IdentitySet.insert idOf) []).length = 1 := by
  refine ⟨rfl, rfl, ?_⟩
  cases l with
  | nil => exact absurd rfl hl
  | cons h t =>
    have h1 : IdentitySet.insert idOf [] h = [h] := by simp [IdentitySet.insert]
    show (t.foldl (IdentitySet.insert idOf) (IdentitySet.insert idOf [] h)).length = 1
    rw [h1, foldl_insert_singleton idOf t [h] h rfl (hall h (by simp))
      (fun x hx => hall x (by simp [hx]))]
    rfl

/-- C10 witness: three distinct degenerate items — two `Invalid`, one
empty `Valid` — collapse to one identity-set slot keyed by the sentinel. -/
theorem lazyItem_invalid_identity_witness :
    ([LazyItem.Invalid, LazyItem.Valid none none 0, LazyItem.Invalid]
        ≠ ([] : List (LazyItem Nat))) ∧
    (∀ x ∈ [LazyItem.Invalid, LazyItem.Valid none none 0,
        (LazyItem.Invalid : LazyItem Nat)],
      x.get_id (fun n => n) = LazyItemId.Persist U32MAX) ∧
    ((LazyItem.Invalid : LazyItem Nat).get_id (fun n => n)
        = LazyItemId.Persist U32MAX ∧
      (LazyItem.Valid (none : Option Nat) none 0).get_id (fun n => n)
          = LazyItemId.Persist U32MAX ∧
      (([LazyItem.Invalid, LazyItem.Valid none none 0,
          (LazyItem.Invalid : LazyItem Nat)].foldl
            (IdentitySet.insert (fun n => n)) [])).length = 1) :=
  ⟨by decide, by decide,
    lazyItem_invalid_identity Nat (fun n => n) 0
      [LazyItem.Invalid, LazyItem.Valid none none 0, LazyItem.Invalid]
      (by decide) (by decide)⟩

/-- Modelled from the spec: `IdentityMap::insert`
(`identity_collections.rs` is not among the sources): an
insertion-ordered map with dedup-on-insert by key — a present key has its
value replaced in place, a new key is appended. -/
def IdentityMap.insert {V : Type} (m : List (IdentityMapKey × V)) (key : IdentityMapKey)
    (value : V) : List (IdentityMapKey × V) :=
  if m.any (fun p => decide (p.1 = key)) then
    m.map (fun p => if p.1 = key then (key, value) else p)
  else m ++ [(key, value)]

/-- Modelled from the spec: `IdentityMap::from_iter` builds a map from
pairs by repeated insert. -/
def IdentityMap.from_iter {V : Type} (l : List (IdentityMapKey × V)) :
    List (IdentityMapKey × V) :=
  l.foldl (fun m p => IdentityMap.insert m p.1 p.2) []

/-- `VectorId` from `types.rs` (lines 98-101): string ids carried as their
UTF-8 bytes, int ids as `i32`. -/
inductive VectorId where
  | Str (s : List Nat) : VectorId
  | Int (n : Int) : VectorId
deriving DecidableEq, Repr

/-- Stream of values the derived `Hash for VectorId` feeds the hasher:
discriminant, then payload. -/
def VectorId.hashStream : VectorId → List ℤ
  | .Str s => 0 :: s.map (fun b => (b : ℤ))
  | .Int n => 1 :: [n]

/-- `NodeProp` from `types.rs` (lines 64-69); the opaque quantized
`Storage` payload is modelled by a `Nat` code. -/
structure NodeProp where
  id : VectorId
  value : Nat
  location : Option (Nat × Nat)
deriving DecidableEq, Repr

/-- `Hash for NodeProp` (`types.rs` lines 71-78): only `id` is hashed;
`value` and `location` contribute nothing. -/
def NodeProp.hashStream (p : NodeProp) : List ℤ := p.id.hashStream

/-- `PropState` from `types.rs` (lines 80-84). -/
inductive PropState where
  | Ready (p : NodeProp) : PropState
  | Pending (loc : Nat × Nat) : PropState
deriving DecidableEq, Repr

/-- Stream fed by the derived `Hash for PropState`: discriminant then
payload; `Arc<NodeProp>` hashes as the inner `NodeProp` (id only). -/
def PropState.hashStream : PropState → List ℤ
  | .Ready p => 0 :: p.hashStream
  | .Pending (a, b) => 1 :: [(a : ℤ), (b : ℤ)]

/-- `MergedNode` from `types.rs` (lines 103-113), restricted to the fields
the claims touch; the recursive `LazyItemMap<MergedNode>` of versions is
parametrized by the version payload type `VerT`. -/
structure MergedNode (VerT : Type) where
  version_id : Nat
  hnsw_level : Nat
  prop : PropState
  versions : List (IdentityMapKey × LazyItem VerT)
  persist_flag : Bool

/-- `Identifiable for MergedNode` (`types.rs` lines 49-59): feed the
current prop to a `DefaultHasher` and return `finish()`; the hasher is an
arbitrary function of the fed stream. -/
def MergedNode.get_id {VerT : Type} (finish : List ℤ → Nat) (node : MergedNode VerT) :
    Nat :=
  finish node.prop.hashStream

/-- `MergedNode::new` (`types.rs` lines 160-171). -/
def MergedNode.new (VerT : Type) (version_id hnsw_level : Nat) : MergedNode VerT :=
  { version_id := version_id, hnsw_level := hnsw_level,
    prop := PropState.Pending (0, 0), versions := [], persist_flag := true }

/-- `MergedNode::add_version` (`types.rs` lines 203-207): wraps the
version in a lazy item and inserts it under the constant key
`IdentityMapKey::Int(0)`. -/
def MergedNode.add_version {VerT : Type} (node : MergedNode VerT) (version : VerT) :
    MergedNode VerT :=
  { node with
    versions :=
      IdentityMap.insert node.versions (IdentityMapKey.Int 0)
        (LazyItem.from_item version) }

/-- C6: the 64-bit identity of a `MergedNode` is the hash of its current
prop, and a `NodeProp` hashes by its `VectorId` alone; hence two nodes
whose props are both `Ready` with the same `VectorId` have equal
identities whatever their storage payloads, locations or other fields. -/
theorem mergedNode_get_id_by_vector_id (VerT : Type) (finish : List ℤ → Nat)
    (n1 n2 : MergedNode VerT) (p1 p2 : NodeProp)
    (h1 : n1.prop = PropState.Ready p1) (h2 : n2.prop = PropState.Ready p2)
    (hid : p1.id = p2.id) :
    (∀ p : NodeProp, p.hashStream = p.id.hashStream) ∧
    n1.get_id finish = n2.get_id finish := by
  refine ⟨fun p => rfl, ?_⟩
  simp [MergedNode.get_id, h1, h2, PropState.hashStream, NodeProp.hashStream, hid]

/-- C6 witness: two `Ready` nodes sharing `VectorId::Int(7)` but with
different storage codes, locations, levels and version ids have the same
identity under a concrete hasher. -/
theorem mergedNode_get_id_by_vector_id_witness :
    (MergedNode.mk 1 2 (PropState.Ready ⟨VectorId.Int 7, 11, none⟩) [] true
        : MergedNode Nat).prop
      = PropState.Ready ⟨VectorId.Int 7, 11, none⟩ ∧
    (MergedNode.mk 3 4 (PropState.Ready ⟨VectorId.Int 7, 99, some (5, 6)⟩) [] false
        : MergedNode Nat).prop
      = PropState.Ready ⟨VectorId.Int 7, 99, some (5, 6)⟩ ∧
    (⟨VectorId.Int 7, 11, (none : Option (Nat × Nat))⟩ : NodeProp).id
      = (⟨VectorId.Int 7, 99, some (5, 6)⟩ : NodeProp).id ∧
    ((∀ p : NodeProp, p.hashStream = p.id.hashStream) ∧
      (MergedNode.mk 1 2 (PropState.Ready ⟨VectorId.Int 7, 11, none⟩) [] true
          : MergedNode Nat).get_id List.length
        = (MergedNode.mk 3 4 (PropState.Ready ⟨VectorId.Int 7, 99, some (5, 6)⟩) [] false
            : MergedNode Nat).get_id List.length) :=
  ⟨rfl, rfl, rfl,
    mergedNode_get_id_by_vector_id Nat List.length
      (MergedNode.mk 1 2 (PropState.Ready ⟨VectorId.Int 7, 11, none⟩) [] true)
      (MergedNode.mk 3 4 (PropState.Ready ⟨VectorId.Int 7, 99, some (5, 6)⟩) [] false)
      ⟨VectorId.Int 7, 11, none⟩ ⟨VectorId.Int 7, 99, some (5, 6)⟩ rfl rfl rfl⟩

theorem foldl_add_version_keys {VerT : Type} (vs : List VerT) (node : MergedNode VerT)
    (hk : node.versions.map Prod.fst = [IdentityMapKey.Int 0]) :
    (vs.foldl MergedNode.add_version node).versions.map Prod.fst
      = [IdentityMapKey.Int 0] := by
  induction vs generalizing node with
  | nil => exact hk
  | cons v t ih =>
    apply ih
    have hsh : ∃ x, node.versions = [(IdentityMapKey.Int 0, x)] := by
      cases hnv : node.versions with
      | nil =>
        rw [hnv] at hk
        simp at hk
      | cons p t2 =>
        rw [hnv] at hk
        cases t2 with
        | nil =>
          simp at hk
          refine ⟨p.2, ?_⟩
          cases p with
          | mk k y =>
            simp at hk ⊢
            exact hk
        | cons q u =>
          simp at hk
    obtain ⟨x, hx⟩ := hsh
    show ((node.add_version v).versions).map Prod.fst = [IdentityMapKey.Int 0]
    simp [MergedNode.add_version, IdentityMap.insert, hx]

/-- C9: `add_version` always inserts under the constant key
`IdentityMapKey::Int(0)` — the new key set is contained in the old one
plus `Int 0` — so after any nonempty sequence of `add_version` calls on a
fresh node the versions map still has exactly the single colliding key
`Int 0`. -/
theorem mergedNode_add_version_key (VerT : Type) (node : MergedNode VerT)
    (version : VerT) (vs : List VerT) (a b : Nat) :
    (∀ k, k ∈ (node.add_version version).versions.map Prod.fst →
      k ∈ node.versions.map Prod.fst ∨ k = IdentityMapKey.Int 0) ∧
    (vs.foldl MergedNode.add_version (MergedNode.new VerT a b)).versions.map Prod.fst
      = List.replicate (min 1 vs.length) (IdentityMapKey.Int 0) := by
  constructor
  · intro k hk
    unfold MergedNode.add_version IdentityMap.insert at hk
    by_cases hc : node.versions.any (fun p => decide (p.1 = IdentityMapKey.Int 0))
    · rw [if_pos hc, List.map_map] at hk
      obtain ⟨p, hp, hfk⟩ := List.mem_map.mp hk
      by_cases hp1 : p.1 = IdentityMapKey.Int 0
      · refine Or.inr ?_
        have h2 : Prod.fst (if p.1 = IdentityMapKey.Int 0 then
            (IdentityMapKey.Int 0, LazyItem.from_item version) else p) = k := hfk
        rw [if_pos hp1] at h2
        exact h2.symm
      · refine Or.inl ?_
        have h2 : Prod.fst (if p.1 = IdentityMapKey.Int 0 then
            (IdentityMapKey.Int 0, LazyItem.from_item version) else p) = k := hfk
        rw [if_neg hp1] at h2
        exact List.mem_map.mpr ⟨p, hp, h2⟩
    · rw [if_neg hc, List.map_append] at hk
      rcases List.mem_append.mp hk with hmem | hmem
      · exact Or.inl hmem
      · refine Or.inr ?_
        simpa using hmem
  · cases vs with
    | nil => rfl
    | cons v t =>
      have h1 : ((MergedNode.new VerT a b).add_version v).versions.map Prod.fst
          = [IdentityMapKey.Int 0] := by
        simp [MergedNode.new, MergedNode.add_version, IdentityMap.insert]
      show (t.foldl MergedNode.add_version
          ((MergedNode.new VerT a b).add_version v)).versions.map Prod.fst = _
      rw [foldl_add_version_keys t _ h1]
      simp

/-- C9 witness: the key theorem at a node already holding a foreign key
`Int 5` and at three successive versions on a fresh node. -/
theorem mergedNode_add_version_key_witness :
    (∀ k, k ∈ ((MergedNode.mk 0 0 (PropState.Pending (0, 0))
          [(IdentityMapKey.Int 5, LazyItem.Invalid)] true
          : MergedNode Nat).add_version 9).versions.map Prod.fst →
      k ∈ (MergedNode.mk 0 0 (PropState.Pending (0, 0))
          [(IdentityMapKey.Int 5, LazyItem.Invalid)] true
          : MergedNode Nat).versions.map Prod.fst ∨ k = IdentityMapKey.Int 0) ∧
    ([1, 2, 3].foldl MergedNode.add_version
        (MergedNode.new Nat 0 1)).versions.map Prod.fst
      = List.replicate (min 1 [1, 2, 3].length) (IdentityMapKey.Int 0) :=
  mergedNode_add_version_key Nat
    (MergedNode.mk 0 0 (PropState.Pending (0, 0))
      [(IdentityMapKey.Int 5, LazyItem.Invalid)] true)
    9 [1, 2, 3] 0 1

/-- Configuration options recognized by the upload path
(`config_loader::Config`, consumed in `api_service.rs`). -/
structure Config where
  threshold : Nat
  batch_size : Nat

/-- Externally visible steps of `run_upload`. -/
inductive UploadEffect where
  | insertEmbedding (i : Nat) : UploadEffect
  | indexEmbeddings (batch_size : Nat) : UploadEffect
  | openVersionFile (ver : Nat) : UploadEffect
  | autoCommit : UploadEffect
deriving DecidableEq, Repr

/-- `run_upload` (`api_service.rs` lines 173-241) as its trace of
externally visible steps: insert every embedding of the batch, read
`count_unindexed` from the metadata store (the value read is the
`count_unindexed` argument), run `index_embeddings` with the configured
batch size iff `count_unindexed >= config.threshold`, then open the next
version file and auto-commit. -/
def run_upload (numVecs count_unindexed current_version : Nat) (config : Config) :
    List UploadEffect :=
  ((List.range numVecs).map UploadEffect.insertEmbedding) ++
  (if config.threshold ≤ count_unindexed then
    [UploadEffect.indexEmbeddings config.batch_size]
  else []) ++
  [UploadEffect.openVersionFile (current_version + 1), UploadEffect.autoCommit]

/-- C7: the indexing pass (`index_embeddings` with the configured batch
size) appears in the `run_upload` trace iff the `count_unindexed` value
read from the metadata store is at least the configured threshold. -/
theorem run_upload_indexing_iff (numVecs count_unindexed current_version : Nat)
    (config : Config) :
    UploadEffect.indexEmbeddings config.batch_size
        ∈ run_upload numVecs count_unindexed current_version config
      ↔ config.threshold ≤ count_unindexed := by
  unfold run_upload
  constructor
  · intro h
    by_contra hc
    simp [hc] at h
  · intro h
    simp [h]

/-- Error kinds of `WaCustomError` used by `init_vector_store`. -/
inductive WaCustomError where
  | InvalidParams : WaCustomError
  | DatabaseError (msg : List Nat) : WaCustomError
deriving DecidableEq, Repr

/-- Externally visible steps of `init_vector_store`. -/
inductive InitEffect where
  | openPropFile : InitEffect
  | openIndexFile : InitEffect
  | writePropToFile : InitEffect
  | persistNode (level : Nat) : InitEffect
  | flushWriter : InitEffect
  | createDb (which : Nat) : InitEffect
  | registerStore (quant_dim : Nat) : InitEffect
  | storeCurrentVersion : InitEffect
deriving DecidableEq, Repr

/-- `init_vector_store` (`api_service.rs` lines 24-171) as result plus
effect trace (external collaborators taken on their happy path): the only
validation is the empty-name check at the top (lines 31-33); the
dimension `size` is never validated and only enters the store as
`quant_dim = size / 32`. -/
def init_vector_store (name : List Nat) (size max_cache_level : Nat) :
    Except WaCustomError Unit × List InitEffect :=
  if name = [] then (Except.error WaCustomError.InvalidParams, [])
  else
    (Except.ok (),
      [InitEffect.openPropFile, InitEffect.openIndexFile, InitEffect.writePropToFile] ++
      ((List.range (max_cache_level + 1)).map InitEffect.persistNode) ++
      [InitEffect.flushWriter, InitEffect.createDb 0, InitEffect.createDb 1,
        InitEffect.registerStore (size / 32), InitEffect.storeCurrentVersion])

/-- C8 counterexample: a zero dimension with a nonempty name (`"a"`) is
not rejected: `init_vector_store` proceeds and performs its side effects
instead of returning `InvalidParams` before any side effect. -/
theorem init_vector_store_zero_dim_cex :
    (init_vector_store [97] 0 2).1 = Except.ok () ∧
    (init_vector_store [97] 0 2).1 ≠ Except.error WaCustomError.InvalidParams ∧
    (init_vector_store [97] 0 2).2 ≠ [] := by
  refine ⟨rfl, ?_, ?_⟩ <;> simp [init_vector_store]

/-- C8 (amended): `init_vector_store` returns `InvalidParams` — and then
performs no side effect — exactly when the caller supplies an empty name;
a zero dimension is not validated. -/
theorem init_vector_store_invalid_params_iff (name : List Nat) (size lvl : Nat) :
    ((init_vector_store name size lvl).1 = Except.error WaCustomError.InvalidParams ∧
      (init_vector_store name size lvl).2 = []) ↔ name = [] := by
  unfold init_vector_store
  by_cases h : name = [] <;> simp [h]

/-- `pub const CHUNK_SIZE: usize = 5` (`lazy_load.rs` line 11). -/
def CHUNK_SIZE : Nat := 5

/-- `LazyItemMap` (`lazy_load.rs` lines 94-97): the `Item<IdentityMap<_>>`
cell is modelled by its contents, an insertion-ordered association list. -/
structure LazyItemMap (V : Type) where
  items : List (IdentityMapKey × V)
deriving DecidableEq

/-- Interface of `CustomSerialize` for the map's values, corresponding to
the `LazyItem<T>: CustomSerialize` bound on the `LazyItemMap<T>` impl (the
lazy-item serializer itself is not among the supplied sources): `ser`
writes a value and returns the offset `serialize` hands back, `deser`
reads a value from a byte store at an offset. -/
structure CustomSerializeV (V : Type) where
  ser : V → WState → Nat × WState
  deser : (Nat → Nat) → Nat → Option V

/-- Modelled from the spec: the contract a `CustomSerialize`
implementation obeys (§4.3's framing of records written at the current
position and patched only within their own extent): the returned offset is
a `u32`; the writer only moves forward; bytes outside the written extent
`[w.pos, end)` are untouched; and deserializing from any byte store that
agrees with the writer output on that extent returns the value. -/
structure SerializeContract {V : Type} (S : CustomSerializeV V) : Prop where
  off_lt : ∀ v w, (S.ser v w).1 < 4294967296
  pos_le : ∀ v w, w.pos ≤ ((S.ser v w).2).pos
  frame : ∀ v w i, i < w.pos ∨ ((S.ser v w).2).pos ≤ i →
    ((S.ser v w).2).bytes i = w.bytes i
  roundtrip : ∀ v w B, w.pos < 4294967296 →
    (∀ i, w.pos ≤ i → i < ((S.ser v w).2).pos → B i = ((S.ser v w).2).bytes i) →
    S.deser B (S.ser v w).1 = some v

/-- One iteration of the per-item loop of `LazyItemMap::serialize`
(`lazy_item_map.rs` lines 51-63): serialize the key (recording its start
as the entry offset), write a `u32` placeholder, serialize the item, then
seek back to patch the chunk slot with the entry offset and the
placeholder with the item offset, and restore the position. The
`set_offset` call on line 56 mutates only the in-memory item, not the byte
stream, so the byte-level model omits it. -/
def serializeEntry {V : Type} (S : CustomSerializeV V) (placeholder_start j : Nat)
    (kv : IdentityMapKey × V) (w : WState) : WState :=
  let eW := kv.1.serialize w
  let wA := eW.2
  let item_placeholder_pos := wA.pos
  let wB := writeU32 0 wA
  let iW := S.ser kv.2 wB
  let wC := iW.2
  let current_pos := wC.pos
  let wD := writeU32 eW.1 (seekTo (placeholder_start + j * 4) wC)
  let wE := writeU32 iW.1 (seekTo item_placeholder_pos wD)
  seekTo current_pos wE

/-- The per-item loop over one chunk's entries, with `j` the slot index
(`i - chunk_start` in the source). -/
def serializeEntries {V : Type} (S : CustomSerializeV V) (placeholder_start : Nat) :
    Nat → List (IdentityMapKey × V) → WState → WState
  | _, [], w => w
  | j, kv :: rest, w =>
    serializeEntries S placeholder_start (j + 1) rest
      (serializeEntry S placeholder_start j kv w)

/-- The placeholder loop `for _ in 0..CHUNK_SIZE { writer.write_u32(u32::MAX) }`
(`lazy_item_map.rs` lines 43-45). -/
def writePlaceholders : Nat → WState → WState
  | 0, w => w
  | n + 1, w => writePlaceholders n (writeU32 U32MAX w)

/-- One iteration of the chunk loop of `LazyItemMap::serialize`
(`lazy_item_map.rs` lines 37-75): write `CHUNK_SIZE` placeholder slots
and a link placeholder (all `u32::MAX`), serialize the chunk's entries
patching the slots, then patch the link with `u32::MAX` for the last
chunk or the next chunk's start otherwise, and seek to that start. -/
def serializeChunk {V : Type} (S : CustomSerializeV V)
    (entries : List (IdentityMapKey × V)) (is_last_chunk : Bool) (w : WState) : WState :=
  let placeholder_start := w.pos % 4294967296
  let w1 := writePlaceholders CHUNK_SIZE w
  let next_chunk_placeholder := w1.pos % 4294967296
  let w2 := writeU32 U32MAX w1
  let w3 := serializeEntries S placeholder_start 0 entries w2
  let next_chunk_start := w3.pos % 4294967296
  let w4 := writeU32 (if is_last_chunk then U32MAX else next_chunk_start)
    (seekTo next_chunk_placeholder w3)
  seekTo next_chunk_start w4

/-- The chunk loop (`for chunk_start in (0..total_items).step_by(CHUNK_SIZE)`),
processing `CHUNK_SIZE` entries per iteration; also returns the start
offsets of the chunks, in order, for stating the layout facts. Six or more
remaining entries mean `chunk_end < total_items` (`is_last_chunk = false`)
and the loop continues on the items past the first five; at most five
remaining entries form the final chunk (`is_last_chunk = true`). The shape
split keeps the recursion structural; `serializeChunks_cons` recovers the
uniform take/drop step. -/
def serializeChunks {V : Type} (S : CustomSerializeV V) :
    List (IdentityMapKey × V) → WState → List Nat × WState
  | [], w => ([], w)
  | a1 :: a2 :: a3 :: a4 :: a5 :: a6 :: rest, w =>
    let p := w.pos % 4294967296
    let w3 := serializeChunk S [a1, a2, a3, a4, a5] false w
    let r := serializeChunks S (a6 :: rest) w3
    (p :: r.1, r.2)
  | l, w => ((w.pos % 4294967296) :: [], serializeChunk S l true w)

/-- `LazyItemMap::serialize` (`lazy_item_map.rs` lines 24-77): an empty
map returns the sentinel `u32::MAX` without writing; otherwise the chunk
loop runs and the start offset of the first chunk is returned. -/
def LazyItemMap.serialize {V : Type} (S : CustomSerializeV V) (m : LazyItemMap V)
    (w : WState) : Nat × WState :=
  if m.items.isEmpty then (U32MAX, w)
  else (w.pos % 4294967296, (serializeChunks S m.items w).2)

/-- The inner slot loop of `LazyItemMap::deserialize` (`lazy_item_map.rs`
lines 93-110): read slot `i` of the chunk, skip it if `u32::MAX`,
otherwise deserialize the key at the entry offset, read the item offset
at the position just past the key, deserialize the item there, and
collect the pair; `r` counts the remaining slots. -/
def deserSlots {V : Type} (S : CustomSerializeV V) (B : Nat → Nat)
    (current_chunk : Nat) : Nat → Nat → Option (List (IdentityMapKey × V))
  | _, 0 => some []
  | i, r + 1 =>
    let entry_offset := readU32 B (current_chunk + i * 4)
    if entry_offset = U32MAX then deserSlots S B current_chunk (i + 1) r
    else
      match IdentityMapKey.deserialize B entry_offset with
      | none => none
      | some (key, after) =>
        match S.deser B (readU32 B after) with
        | none => none
        | some item =>
          match deserSlots S B current_chunk (i + 1) r with
          | none => none
          | some rest => some ((key, item) :: rest)

/-- The chunk-chain loop of `LazyItemMap::deserialize` (`lazy_item_map.rs`
lines 92-119): read a chunk's slots, then follow the next-chunk link
until it is `u32::MAX`. The Rust loop runs unboundedly; `fuel` bounds the
model's walk and any value at least the chunk count suffices. -/
def deserChunks {V : Type} (S : CustomSerializeV V) (B : Nat → Nat) :
    Nat → Nat → Option (List (IdentityMapKey × V))
  | 0, _ => none
  | fuel + 1, current_chunk =>
    match deserSlots S B current_chunk 0 CHUNK_SIZE with
    | none => none
    | some entries =>
      let link := readU32 B (current_chunk + CHUNK_SIZE * 4)
      if link = U32MAX then some entries
      else
        match deserChunks S B fuel link with
        | none => none
        | some rest => some (entries ++ rest)

/-- `LazyItemMap::deserialize` (`lazy_item_map.rs` lines 79-123): the
sentinel offset yields the empty map, otherwise the collected pairs are
rebuilt into a map with `IdentityMap::from_iter`. -/
def LazyItemMap.deserialize {V : Type} (S : CustomSerializeV V) (B : Nat → Nat)
    (offset fuel : Nat) : Option (LazyItemMap V) :=
  if offset = U32MAX then some ⟨[]⟩
  else
    match deserChunks S B fuel offset with
    | none => none
    | some items => some ⟨IdentityMap.from_iter items⟩

/-- C3: serializing an empty `LazyItemMap` returns the sentinel
`u32::MAX` and leaves the writer untouched — no zero-length chunk — and
deserializing at offset `u32::MAX` returns an empty map, for every value
serializer, writer state, byte store and fuel: the empty collection
round-trips to an empty collection. -/
theorem lazyItemMap_empty_roundtrip (V : Type) (S : CustomSerializeV V) (w : WState)
    (B : Nat → Nat) (fuel : Nat) :
    LazyItemMap.serialize S ⟨[]⟩ w = (U32MAX, w) ∧
    LazyItemMap.deserialize S B U32MAX fuel = some (⟨[]⟩ : LazyItemMap V) := by
  constructor
  · rfl
  · simp [LazyItemMap.deserialize]

theorem seekTo_bytes (p : Nat) (s : WState) : (seekTo p s).bytes = s.bytes := rfl

theorem seekTo_pos (p : Nat) (s : WState) : (seekTo p s).pos = p := rfl

theorem serializeEntry_pos {V : Type} (S : CustomSerializeV V) (hS : SerializeContract S)
    (ps j : Nat) (k : IdentityMapKey) (v : V) (w : WState) :
    (serializeEntry S ps j (k, v) w).pos
      = ((S.ser v (writeU32 0 (k.serialize w).2)).2).pos ∧
    w.pos + k.keyLen + 4 ≤ (serializeEntry S ps j (k, v) w).pos := by
  have h1 : (serializeEntry S ps j (k, v) w).pos
      = ((S.ser v (writeU32 0 (k.serialize w).2)).2).pos := rfl
  refine ⟨h1, ?_⟩
  rw [h1]
  have h2 := hS.pos_le v (writeU32 0 (k.serialize w).2)
  rw [writeU32_pos, key_serialize_pos] at h2
  omega

theorem serializeEntry_frame {V : Type} (S : CustomSerializeV V)
    (hS : SerializeContract S) (ps j : Nat) (k : IdentityMapKey) (v : V) (w : WState)
    (i : Nat) (hps : ps + 24 ≤ w.pos) (hj : j < 5)
    (h1 : i < w.pos ∨ (serializeEntry S ps j (k, v) w).pos ≤ i)
    (h2 : i < ps + j * 4 ∨ ps + j * 4 + 4 ≤ i) :
    (serializeEntry S ps j (k, v) w).bytes i = w.bytes i := by
  have hA : (k.serialize w).2.pos = w.pos + k.keyLen := key_serialize_pos k w
  have hkl : 4 ≤ k.keyLen := by cases k <;> simp [IdentityMapKey.keyLen]
  have hWB : (writeU32 0 (k.serialize w).2).pos = w.pos + k.keyLen + 4 := by
    rw [writeU32_pos, hA]
  have hC : (writeU32 0 (k.serialize w).2).pos
      ≤ (S.ser v (writeU32 0 (k.serialize w).2)).2.pos :=
    hS.pos_le v (writeU32 0 (k.serialize w).2)
  have hEpos : (serializeEntry S ps j (k, v) w).pos
      = (S.ser v (writeU32 0 (k.serialize w).2)).2.pos := rfl
  rw [hEpos] at h1
  show (writeU32 (S.ser v (writeU32 0 (k.serialize w).2)).1
      (seekTo (k.serialize w).2.pos
        (writeU32 (k.serialize w).1
          (seekTo (ps + j * 4) (S.ser v (writeU32 0 (k.serialize w).2)).2)))).bytes i
      = w.bytes i
  rw [writeU32_frame _ _ _ (by simp only [seekTo_pos]; omega)]
  rw [seekTo_bytes]
  rw [writeU32_frame _ _ _ (by simp only [seekTo_pos]; omega)]
  rw [seekTo_bytes]
  rw [hS.frame v (writeU32 0 (k.serialize w).2) i (by omega)]
  rw [writeU32_frame _ _ _ (by omega)]
  exact key_serialize_frame k w i (by omega)

theorem serializeEntry_slot {V : Type} (S : CustomSerializeV V)
    (ps j : Nat) (k : IdentityMapKey) (v : V) (w : WState)
    (hps : ps + 24 ≤ w.pos) (hj : j < 5) (hw : w.pos < 4294967296) :
    readU32 (serializeEntry S ps j (k, v) w).bytes (ps + j * 4) = w.pos := by
  have hA : (k.serialize w).2.pos = w.pos + k.keyLen := key_serialize_pos k w
  have hkl : 4 ≤ k.keyLen := by cases k <;> simp [IdentityMapKey.keyLen]
  show readU32 (writeU32 (S.ser v (writeU32 0 (k.serialize w).2)).1
      (seekTo (k.serialize w).2.pos
        (writeU32 (k.serialize w).1
          (seekTo (ps + j * 4) (S.ser v (writeU32 0 (k.serialize w).2)).2)))).bytes
      (ps + j * 4) = w.pos
  have hcg : readU32 (writeU32 (S.ser v (writeU32 0 (k.serialize w).2)).1
      (seekTo (k.serialize w).2.pos
        (writeU32 (k.serialize w).1
          (seekTo (ps + j * 4) (S.ser v (writeU32 0 (k.serialize w).2)).2)))).bytes
      (ps + j * 4)
      = readU32 (writeU32 (k.serialize w).1
        (seekTo (ps + j * 4) (S.ser v (writeU32 0 (k.serialize w).2)).2)).bytes
        (ps + j * 4) :=
    readU32_congr _ _ _
      (fun i hi1 hi2 => writeU32_frame _ _ _ (by simp only [seekTo_pos]; omega))
  have hrd := readU32_writeU32 (k.serialize w).1
    (seekTo (ps + j * 4) (S.ser v (writeU32 0 (k.serialize w).2)).2)
  rw [seekTo_pos] at hrd
  rw [hcg, hrd, key_serialize_fst k w hw]
  omega

theorem serializeEntry_deser {V : Type} (S : CustomSerializeV V)
    (hS : SerializeContract S) (ps j : Nat) (k : IdentityMapKey) (v : V) (w : WState)
    (hwf : k.wellFormed) (hps : ps + 24 ≤ w.pos) (hj : j < 5)
    (hsz : (serializeEntry S ps j (k, v) w).pos < 4294967296)
    (B : Nat → Nat)
    (hag : ∀ i, w.pos ≤ i → i < (serializeEntry S ps j (k, v) w).pos →
      B i = (serializeEntry S ps j (k, v) w).bytes i) :
    IdentityMapKey.deserialize B w.pos = some (k, w.pos + k.keyLen) ∧
    readU32 B (w.pos + k.keyLen) = (S.ser v (writeU32 0 (k.serialize w).2)).1 ∧
    S.deser B (readU32 B (w.pos + k.keyLen)) = some v := by
  have hA : (k.serialize w).2.pos = w.pos + k.keyLen := key_serialize_pos k w
  have hkl : 4 ≤ k.keyLen := by cases k <;> simp [IdentityMapKey.keyLen]
  have hWB : (writeU32 0 (k.serialize w).2).pos = w.pos + k.keyLen + 4 := by
    rw [writeU32_pos, hA]
  have hC : (writeU32 0 (k.serialize w).2).pos
      ≤ (S.ser v (writeU32 0 (k.serialize w).2)).2.pos :=
    hS.pos_le v (writeU32 0 (k.serialize w).2)
  have hEpos : (serializeEntry S ps j (k, v) w).pos
      = (S.ser v (writeU32 0 (k.serialize w).2)).2.pos := rfl
  have hEbytes : (serializeEntry S ps j (k, v) w).bytes
      = (writeU32 (S.ser v (writeU32 0 (k.serialize w).2)).1
        (seekTo (k.serialize w).2.pos
          (writeU32 (k.serialize w).1
            (seekTo (ps + j * 4) (S.ser v (writeU32 0 (k.serialize w).2)).2)))).bytes :=
    rfl
  rw [hEpos] at hsz hag
  -- bytes of the entry state over the key extent agree with the key writer output
  have hkey : ∀ i, w.pos ≤ i → i < w.pos + k.keyLen →
      B i = (k.serialize w).2.bytes i := by
    intro i hi1 hi2
    rw [hag i hi1 (by omega), hEbytes]
    rw [writeU32_frame _ _ _ (by simp only [seekTo_pos]; omega)]
    rw [seekTo_bytes]
    rw [writeU32_frame _ _ _ (by simp only [seekTo_pos]; omega)]
    rw [seekTo_bytes]
    rw [hS.frame v (writeU32 0 (k.serialize w).2) i (by omega)]
    rw [writeU32_frame _ _ _ (by omega)]
  -- the patched placeholder holds the item offset
  have hio : readU32 B (w.pos + k.keyLen)
      = (S.ser v (writeU32 0 (k.serialize w).2)).1 := by
    have hio1 : readU32 B (w.pos + k.keyLen)
        = readU32 (serializeEntry S ps j (k, v) w).bytes (w.pos + k.keyLen) :=
      readU32_congr _ _ _ (fun i hi1 hi2 => hag i (by omega) (by omega))
    have hio2 := readU32_writeU32 (S.ser v (writeU32 0 (k.serialize w).2)).1
      (seekTo (k.serialize w).2.pos
        (writeU32 (k.serialize w).1
          (seekTo (ps + j * 4) (S.ser v (writeU32 0 (k.serialize w).2)).2)))
    rw [seekTo_pos] at hio2
    rw [hio1, hEbytes, ← hA, hio2]
    exact Nat.mod_eq_of_lt (hS.off_lt v (writeU32 0 (k.serialize w).2))
  refine ⟨key_roundtrip k w hwf B hkey, hio, ?_⟩
  rw [hio]
  apply hS.roundtrip v (writeU32 0 (k.serialize w).2) B (by omega)
  intro i hi1 hi2
  rw [hag i (by omega) hi2, hEbytes]
  rw [writeU32_frame _ _ _ (by simp only [seekTo_pos]; omega)]
  rw [seekTo_bytes]
  rw [writeU32_frame _ _ _ (by simp only [seekTo_pos]; omega)]
  rw [seekTo_bytes]

theorem serializeEntries_pos_le {V : Type} (S : CustomSerializeV V)
    (hS : SerializeContract S) (ps : Nat) :
    ∀ (es : List (IdentityMapKey × V)) (j : Nat) (w : WState),
    w.pos ≤ (serializeEntries S ps j es w).pos := by
  intro es
  induction es with
  | nil => intro j w; exact le_refl w.pos
  | cons kv rest ih =>
    obtain ⟨k, v⟩ := kv
    intro j w
    have h1 := (serializeEntry_pos S hS ps j k v w).2
    have h2 := ih (j + 1) (serializeEntry S ps j (k, v) w)
    calc w.pos ≤ (serializeEntry S ps j (k, v) w).pos := by omega
      _ ≤ _ := h2

theorem serializeEntries_frame {V : Type} (S : CustomSerializeV V)
    (hS : SerializeContract S) (ps : Nat) :
    ∀ (es : List (IdentityMapKey × V)) (j : Nat) (w : WState) (i : Nat),
    ps + 24 ≤ w.pos → j + es.length ≤ 5 →
    (i < w.pos ∨ (serializeEntries S ps j es w).pos ≤ i) →
    (i < ps + j * 4 ∨ ps + (j + es.length) * 4 ≤ i) →
    (serializeEntries S ps j es w).bytes i = w.bytes i := by
  intro es
  induction es with
  | nil => intro j w i hps hlen h1 h2; rfl
  | cons kv rest ih =>
    obtain ⟨k, v⟩ := kv
    intro j w i hps hlen h1 h2
    simp only [List.length_cons] at hlen h2
    have hEp := (serializeEntry_pos S hS ps j k v w).2
    have hfin := serializeEntries_pos_le S hS ps rest (j + 1)
      (serializeEntry S ps j (k, v) w)
    have hstep : serializeEntries S ps j ((k, v) :: rest) w
        = serializeEntries S ps (j + 1) rest (serializeEntry S ps j (k, v) w) := rfl
    rw [hstep] at h1 ⊢
    rw [ih (j + 1) (serializeEntry S ps j (k, v) w) i (by omega)
      (by omega) (by omega) (by omega)]
    exact serializeEntry_frame S hS ps j k v w i hps (by omega)
      (by omega) (by omega)

theorem deserSlots_all_max {V : Type} (S : CustomSerializeV V) (B : Nat → Nat)
    (ps : Nat) :
    ∀ (r j : Nat), (∀ t, j ≤ t → t < j + r → readU32 B (ps + t * 4) = U32MAX) →
    deserSlots S B ps j r = some [] := by
  intro r
  induction r with
  | zero => intro j h; rfl
  | succ r2 ih =>
    intro j h
    have hmax : readU32 B (ps + j * 4) = U32MAX := h j (le_refl j) (by omega)
    show deserSlots S B ps j (r2 + 1) = some []
    simp only [deserSlots]
    rw [hmax]
    simp only [if_pos rfl]
    exact ih (j + 1) (fun t ht1 ht2 => h t (by omega) (by omega))

theorem serializeEntries_deser {V : Type} (S : CustomSerializeV V)
    (hS : SerializeContract S) (ps : Nat) :
    ∀ (es : List (IdentityMapKey × V)) (j : Nat) (w : WState),
    ps + 24 ≤ w.pos →
    j + es.length ≤ 5 →
    (∀ p ∈ es, p.1.wellFormed) →
    (serializeEntries S ps j es w).pos < 4294967296 →
    ∀ B : Nat → Nat,
    (∀ i, ps + j * 4 ≤ i → i < ps + (j + es.length) * 4 →
      B i = (serializeEntries S ps j es w).bytes i) →
    (∀ i, w.pos ≤ i → i < (serializeEntries S ps j es w).pos →
      B i = (serializeEntries S ps j es w).bytes i) →
    (∀ t, j + es.length ≤ t → t < 5 → readU32 B (ps + t * 4) = U32MAX) →
    deserSlots S B ps j (5 - j) = some es := by
  intro es
  induction es with
  | nil =>
    intro j w hps hlen hwf hsz B hslot hag hmax
    exact deserSlots_all_max S B ps (5 - j) j
      (fun t ht1 ht2 => hmax t (by simpa using ht1) (by omega))
  | cons kv rest ih =>
    obtain ⟨k, v⟩ := kv
    intro j w hps hlen hwf hsz B hslot hag hmax
    simp only [List.length_cons] at hlen hslot hmax
    have hstep : serializeEntries S ps j ((k, v) :: rest) w
        = serializeEntries S ps (j + 1) rest (serializeEntry S ps j (k, v) w) := rfl
    rw [hstep] at hsz hslot hag
    have hEp := (serializeEntry_pos S hS ps j k v w).2
    have hfin := serializeEntries_pos_le S hS ps rest (j + 1)
      (serializeEntry S ps j (k, v) w)
    have hkl : 4 ≤ k.keyLen := by cases k <;> simp [IdentityMapKey.keyLen]
    have hw32 : w.pos < 4294967296 := by omega
    -- the final bytes on slot j hold the patched entry offset, i.e. w.pos
    have hslotj : readU32 B (ps + j * 4) = w.pos := by
      have h1 : ∀ i, ps + j * 4 ≤ i → i < ps + j * 4 + 4 →
          B i = (serializeEntry S ps j (k, v) w).bytes i := by
        intro i hi1 hi2
        rw [hslot i hi1 (by omega)]
        exact serializeEntries_frame S hS ps rest (j + 1)
          (serializeEntry S ps j (k, v) w) i (by omega) (by omega) (by omega) (by omega)
      rw [readU32_congr B (serializeEntry S ps j (k, v) w).bytes (ps + j * 4) h1]
      exact serializeEntry_slot S ps j k v w hps (by omega) hw32
    have hwne : w.pos ≠ U32MAX := by
      show w.pos ≠ 4294967295
      omega
    -- the entry round-trips out of the final byte store
    have hent := serializeEntry_deser S hS ps j k v w (hwf (k, v) (by simp)) hps
      (by omega) (by omega) B
      (fun i hi1 hi2 => by
        rw [hag i hi1 (by omega)]
        exact serializeEntries_frame S hS ps rest (j + 1)
          (serializeEntry S ps j (k, v) w) i (by omega) (by omega) (Or.inl hi2)
          (by omega))
    obtain ⟨hkey, hioeq, hval⟩ := hent
    -- the remaining slots recover the remaining entries
    have hrec : deserSlots S B ps (j + 1) (5 - (j + 1)) = some rest := by
      apply ih (j + 1) (serializeEntry S ps j (k, v) w) (by omega) (by omega)
        (fun p hp => hwf p (by simp [hp])) hsz B
      · intro i hi1 hi2
        exact hslot i (by omega) (by omega)
      · intro i hi1 hi2
        exact hag i (by omega) hi2
      · intro t ht1 ht2
        exact hmax t (by omega) ht2
    show deserSlots S B ps j (5 - j) = some ((k, v) :: rest)
    have hr : 5 - j = (5 - (j + 1)) + 1 := by omega
    rw [hr]
    simp only [deserSlots]
    rw [hslotj, if_neg hwne]
    simp only [hkey, hval, hrec]

theorem writePlaceholders_pos (n : Nat) : ∀ w : WState,
    (writePlaceholders n w).pos = w.pos + 4 * n := by
  induction n with
  | zero => intro w; simp [writePlaceholders]
  | succ m ih =>
    intro w
    show (writePlaceholders m (writeU32 U32MAX w)).pos = _
    rw [ih, writeU32_pos]
    omega

theorem writePlaceholders_frame (n : Nat) : ∀ (w : WState) (i : Nat),
    i < w.pos ∨ w.pos + 4 * n ≤ i → (writePlaceholders n w).bytes i = w.bytes i := by
  induction n with
  | zero => intro w i h; rfl
  | succ m ih =>
    intro w i h
    show (writePlaceholders m (writeU32 U32MAX w)).bytes i = _
    rw [ih (writeU32 U32MAX w) i (by rw [writeU32_pos]; omega)]
    exact writeU32_frame U32MAX w i (by omega)

theorem writePlaceholders_read (n : Nat) : ∀ (w : WState) (t : Nat), t < n →
    readU32 (writePlaceholders n w).bytes (w.pos + t * 4) = U32MAX := by
  induction n with
  | zero => intro w t ht; omega
  | succ m ih =>
    intro w t ht
    show readU32 (writePlaceholders m (writeU32 U32MAX w)).bytes (w.pos + t * 4) = _
    cases t with
    | zero =>
      have h1 : ∀ i, w.pos + 0 * 4 ≤ i → i < w.pos + 0 * 4 + 4 →
          (writePlaceholders m (writeU32 U32MAX w)).bytes i = (writeU32 U32MAX w).bytes i := by
        intro i hi1 hi2
        exact writePlaceholders_frame m (writeU32 U32MAX w) i
          (by rw [writeU32_pos]; omega)
      rw [readU32_congr _ (writeU32 U32MAX w).bytes _ h1]
      have h2 := readU32_writeU32 U32MAX w
      simp only [Nat.zero_mul, Nat.add_zero]
      rw [h2]
      rfl
    | succ t2 =>
      have h1 := ih (writeU32 U32MAX w) t2 (by omega)
      rw [writeU32_pos] at h1
      rw [show w.pos + (t2 + 1) * 4 = w.pos + 4 + t2 * 4 by omega]
      exact h1

/-- The no-overflow side condition for the chunk loop: within every chunk,
the furthest cursor position (reached just after the chunk's entries are
serialized) stays below `2^32`, so the `as u32` casts on stream positions
are lossless. The spec notes (§9) that a file cannot reach 4 GiB in this
design; this is that assumption, stated on the model. -/
def chunksFit {V : Type} (S : CustomSerializeV V) :
    List (IdentityMapKey × V) → WState → Bool
  | [], _ => true
  | a1 :: a2 :: a3 :: a4 :: a5 :: a6 :: rest, w =>
    decide ((serializeEntries S (w.pos % 4294967296) 0 [a1, a2, a3, a4, a5]
        (writeU32 U32MAX (writePlaceholders CHUNK_SIZE w))).pos < 4294967296)
    && chunksFit S (a6 :: rest) (serializeChunk S [a1, a2, a3, a4, a5] false w)
  | l, w =>
    decide ((serializeEntries S (w.pos % 4294967296) 0 l
        (writeU32 U32MAX (writePlaceholders CHUNK_SIZE w))).pos < 4294967296)

theorem serializeChunk_pos {V : Type} (S : CustomSerializeV V) (hS : SerializeContract S)
    (es : List (IdentityMapKey × V)) (isLast : Bool) (w : WState)
    (hsz : (serializeEntries S (w.pos % 4294967296) 0 es
      (writeU32 U32MAX (writePlaceholders CHUNK_SIZE w))).pos < 4294967296) :
    (serializeChunk S es isLast w).pos
      = (serializeEntries S (w.pos % 4294967296) 0 es
        (writeU32 U32MAX (writePlaceholders CHUNK_SIZE w))).pos ∧
    w.pos + 24 ≤ (serializeChunk S es isLast w).pos := by
  have hck : CHUNK_SIZE = 5 := rfl
  have hW2pos : (writeU32 U32MAX (writePlaceholders CHUNK_SIZE w)).pos = w.pos + 24 := by
    rw [writeU32_pos, writePlaceholders_pos, hck]
  have hW3ge := serializeEntries_pos_le S hS (w.pos % 4294967296) es 0
    (writeU32 U32MAX (writePlaceholders CHUNK_SIZE w))
  have h1 : (serializeChunk S es isLast w).pos
      = (serializeEntries S (w.pos % 4294967296) 0 es
        (writeU32 U32MAX (writePlaceholders CHUNK_SIZE w))).pos % 4294967296 := rfl
  rw [h1, Nat.mod_eq_of_lt hsz]
  omega

theorem serializeChunk_frame {V : Type} (S : CustomSerializeV V)
    (hS : SerializeContract S)
    (es : List (IdentityMapKey × V)) (isLast : Bool) (w : WState) (i : Nat)
    (hlen : es.length ≤ 5) (hw : w.pos < 4294967296)
    (hsz : (serializeEntries S (w.pos % 4294967296) 0 es
      (writeU32 U32MAX (writePlaceholders CHUNK_SIZE w))).pos < 4294967296)
    (h1 : i < w.pos ∨ (serializeChunk S es isLast w).pos ≤ i) :
    (serializeChunk S es isLast w).bytes i = w.bytes i := by
  have hps : w.pos % 4294967296 = w.pos := Nat.mod_eq_of_lt hw
  have hck : CHUNK_SIZE = 5 := rfl
  have hW1pos : (writePlaceholders CHUNK_SIZE w).pos = w.pos + 20 := by
    rw [writePlaceholders_pos, hck]
  have hW2pos : (writeU32 U32MAX (writePlaceholders CHUNK_SIZE w)).pos = w.pos + 24 := by
    rw [writeU32_pos, hW1pos]
  have hW3ge := serializeEntries_pos_le S hS (w.pos % 4294967296) es 0
    (writeU32 U32MAX (writePlaceholders CHUNK_SIZE w))
  rw [(serializeChunk_pos S hS es isLast w hsz).1] at h1
  have hW1m : (writePlaceholders CHUNK_SIZE w).pos % 4294967296 = w.pos + 20 := by
    rw [hW1pos]
    omega
  show (writeU32 (if isLast then U32MAX
      else (serializeEntries S (w.pos % 4294967296) 0 es
        (writeU32 U32MAX (writePlaceholders CHUNK_SIZE w))).pos % 4294967296)
      (seekTo ((writePlaceholders CHUNK_SIZE w).pos % 4294967296)
        (serializeEntries S (w.pos % 4294967296) 0 es
          (writeU32 U32MAX (writePlaceholders CHUNK_SIZE w))))).bytes i
    = w.bytes i
  rw [writeU32_frame _ _ _ (by rw [seekTo_pos, hW1m]; omega)]
  rw [seekTo_bytes]
  rw [serializeEntries_frame S hS (w.pos % 4294967296) es 0
    (writeU32 U32MAX (writePlaceholders CHUNK_SIZE w)) i (by omega) (by omega)
    (by omega) (by omega)]
  rw [writeU32_frame _ _ _ (by omega)]
  exact writePlaceholders_frame CHUNK_SIZE w i (by omega)

theorem serializeChunk_deser {V : Type} (S : CustomSerializeV V)
    (hS : SerializeContract S)
    (es : List (IdentityMapKey × V)) (isLast : Bool) (w : WState)
    (hlen : es.length ≤ 5) (hwf : ∀ p ∈ es, p.1.wellFormed)
    (hw : w.pos < 4294967296)
    (hsz : (serializeEntries S (w.pos % 4294967296) 0 es
      (writeU32 U32MAX (writePlaceholders CHUNK_SIZE w))).pos < 4294967296)
    (B : Nat → Nat)
    (hB : ∀ i, w.pos ≤ i → i < (serializeChunk S es isLast w).pos →
      B i = (serializeChunk S es isLast w).bytes i) :
    deserSlots S B w.pos 0 CHUNK_SIZE = some es ∧
    readU32 B (w.pos + CHUNK_SIZE * 4)
      = (if isLast then U32MAX else (serializeChunk S es isLast w).pos) ∧
    (∀ t, es.length ≤ t → t < 5 → readU32 B (w.pos + t * 4) = U32MAX) := by
  have hps : w.pos % 4294967296 = w.pos := Nat.mod_eq_of_lt hw
  have hck : CHUNK_SIZE = 5 := rfl
  have hW1pos : (writePlaceholders CHUNK_SIZE w).pos = w.pos + 20 := by
    rw [writePlaceholders_pos, hck]
  have hW2pos : (writeU32 U32MAX (writePlaceholders CHUNK_SIZE w)).pos = w.pos + 24 := by
    rw [writeU32_pos, hW1pos]
  have hW3ge := serializeEntries_pos_le S hS (w.pos % 4294967296) es 0
    (writeU32 U32MAX (writePlaceholders CHUNK_SIZE w))
  have hCp := serializeChunk_pos S hS es isLast w hsz
  have hW1m : (writePlaceholders CHUNK_SIZE w).pos % 4294967296 = w.pos + 20 := by
    rw [hW1pos]
    omega
  have hCbytes : (serializeChunk S es isLast w).bytes
      = (writeU32 (if isLast then U32MAX
        else (serializeEntries S (w.pos % 4294967296) 0 es
          (writeU32 U32MAX (writePlaceholders CHUNK_SIZE w))).pos % 4294967296)
        (seekTo ((writePlaceholders CHUNK_SIZE w).pos % 4294967296)
          (serializeEntries S (w.pos % 4294967296) 0 es
            (writeU32 U32MAX (writePlaceholders CHUNK_SIZE w))))).bytes := rfl
  -- agreement of B with the post-entries state outside the link cell
  have hBW3 : ∀ i, w.pos ≤ i →
      i < (serializeEntries S (w.pos % 4294967296) 0 es
        (writeU32 U32MAX (writePlaceholders CHUNK_SIZE w))).pos →
      (i < w.pos + 20 ∨ w.pos + 24 ≤ i) →
      B i = (serializeEntries S (w.pos % 4294967296) 0 es
        (writeU32 U32MAX (writePlaceholders CHUNK_SIZE w))).bytes i := by
    intro i hi1 hi2 hi3
    rw [hB i hi1 (by omega), hCbytes]
    rw [writeU32_frame _ _ _ (by rw [seekTo_pos, hW1m]; omega)]
    rw [seekTo_bytes]
  -- slots holding entries agree, slots past the entries read the header MAX
  have hmax : ∀ t, es.length ≤ t → t < 5 → readU32 B (w.pos + t * 4) = U32MAX := by
    intro t ht1 ht2
    have h1 : ∀ i, w.pos + t * 4 ≤ i → i < w.pos + t * 4 + 4 →
        B i = (serializeEntries S (w.pos % 4294967296) 0 es
          (writeU32 U32MAX (writePlaceholders CHUNK_SIZE w))).bytes i := by
      intro i hi1 hi2
      exact hBW3 i (by omega) (by omega) (by omega)
    rw [readU32_congr B _ _ h1]
    have h2 : ∀ i, w.pos + t * 4 ≤ i → i < w.pos + t * 4 + 4 →
        (serializeEntries S (w.pos % 4294967296) 0 es
          (writeU32 U32MAX (writePlaceholders CHUNK_SIZE w))).bytes i
        = (writeU32 U32MAX (writePlaceholders CHUNK_SIZE w)).bytes i := by
      intro i hi1 hi2
      exact serializeEntries_frame S hS (w.pos % 4294967296) es 0
        (writeU32 U32MAX (writePlaceholders CHUNK_SIZE w)) i (by omega) (by omega)
        (by omega) (by omega)
    rw [readU32_congr _ _ _ h2]
    have h3 : ∀ i, w.pos + t * 4 ≤ i → i < w.pos + t * 4 + 4 →
        (writeU32 U32MAX (writePlaceholders CHUNK_SIZE w)).bytes i
        = (writePlaceholders CHUNK_SIZE w).bytes i := by
      intro i hi1 hi2
      exact writeU32_frame _ _ _ (by omega)
    rw [readU32_congr _ _ _ h3]
    exact writePlaceholders_read CHUNK_SIZE w t ht2
  refine ⟨?_, ?_, hmax⟩
  · -- the slot loop returns the entries
    have hds := serializeEntries_deser S hS (w.pos % 4294967296) es 0
      (writeU32 U32MAX (writePlaceholders CHUNK_SIZE w)) (by omega)
      (by omega) hwf (by omega) B
      (fun i hi1 hi2 => hBW3 i (by omega) (by omega) (by omega))
      (fun i hi1 hi2 => hBW3 i (by omega) hi2 (by omega))
      (fun t ht1 ht2 => by rw [hps]; exact hmax t (by omega) ht2)
    rw [hps] at hds
    exact hds
  · -- the link cell holds MAX or the next chunk start
    have h1 : ∀ i, w.pos + CHUNK_SIZE * 4 ≤ i → i < w.pos + CHUNK_SIZE * 4 + 4 →
        B i = (serializeChunk S es isLast w).bytes i := by
      intro i hi1 hi2
      apply hB i (by simp [CHUNK_SIZE] at hi1; omega)
      simp [CHUNK_SIZE] at hi2
      omega
    rw [readU32_congr B _ _ h1, hCbytes]
    have h2 := readU32_writeU32 (if isLast then U32MAX
      else (serializeEntries S (w.pos % 4294967296) 0 es
        (writeU32 U32MAX (writePlaceholders CHUNK_SIZE w))).pos % 4294967296)
      (seekTo ((writePlaceholders CHUNK_SIZE w).pos % 4294967296)
        (serializeEntries S (w.pos % 4294967296) 0 es
          (writeU32 U32MAX (writePlaceholders CHUNK_SIZE w))))
    rw [seekTo_pos, hW1m] at h2
    rw [show w.pos + CHUNK_SIZE * 4 = w.pos + 20 by rw [hck]] at h1 ⊢
    rw [hW1m, h2]
    cases isLast with
    | true => simp [U32MAX]
    | false =>
      simp only [Bool.false_eq_true, if_false]
      rw [hCp.1]
      omega

theorem serializeChunks_cons {V : Type} (S : CustomSerializeV V)
    (a : IdentityMapKey × V) (t : List (IdentityMapKey × V)) (w : WState) :
    serializeChunks S (a :: t) w
      = ((w.pos % 4294967296) :: (serializeChunks S ((a :: t).drop CHUNK_SIZE)
          (serializeChunk S ((a :: t).take CHUNK_SIZE)
            (decide ((a :: t).length ≤ CHUNK_SIZE)) w)).1,
        (serializeChunks S ((a :: t).drop CHUNK_SIZE)
          (serializeChunk S ((a :: t).take CHUNK_SIZE)
            (decide ((a :: t).length ≤ CHUNK_SIZE)) w)).2) := by
  rcases t with _ | ⟨b1, _ | ⟨b2, _ | ⟨b3, _ | ⟨b4, _ | ⟨b5, rest⟩⟩⟩⟩⟩
  · rfl
  · rfl
  · rfl
  · rfl
  · rfl
  · have hd : decide ((a :: b1 :: b2 :: b3 :: b4 :: b5 :: rest).length ≤ CHUNK_SIZE)
        = false := by
      apply decide_eq_false
      simp only [List.length_cons, CHUNK_SIZE]
      omega
    rw [hd]
    rfl

theorem chunksFit_cons {V : Type} (S : CustomSerializeV V)
    (a : IdentityMapKey × V) (t : List (IdentityMapKey × V)) (w : WState) :
    chunksFit S (a :: t) w
      = (decide ((serializeEntries S (w.pos % 4294967296) 0 ((a :: t).take CHUNK_SIZE)
          (writeU32 U32MAX (writePlaceholders CHUNK_SIZE w))).pos < 4294967296)
        && chunksFit S ((a :: t).drop CHUNK_SIZE)
          (serializeChunk S ((a :: t).take CHUNK_SIZE)
            (decide ((a :: t).length ≤ CHUNK_SIZE)) w)) := by
  rcases t with _ | ⟨b1, _ | ⟨b2, _ | ⟨b3, _ | ⟨b4, _ | ⟨b5, rest⟩⟩⟩⟩⟩
  · exact (Bool.and_true _).symm
  · exact (Bool.and_true _).symm
  · exact (Bool.and_true _).symm
  · exact (Bool.and_true _).symm
  · exact (Bool.and_true _).symm
  · have hd : decide ((a :: b1 :: b2 :: b3 :: b4 :: b5 :: rest).length ≤ CHUNK_SIZE)
        = false := by
      apply decide_eq_false
      simp only [List.length_cons, CHUNK_SIZE]
      omega
    rw [hd]
    rfl

theorem serializeChunks_nil {V : Type} (S : CustomSerializeV V) (w : WState) :
    serializeChunks S [] w = ([], w) := rfl

theorem serializeChunks_state {V : Type} (S : CustomSerializeV V)
    (hS : SerializeContract S) :
    ∀ (n : Nat) (l : List (IdentityMapKey × V)) (w : WState),
    l.length ≤ n → l ≠ [] → w.pos < 4294967296 → chunksFit S l w = true →
    (w.pos + 24 ≤ (serializeChunks S l w).2.pos ∧
      (serializeChunks S l w).2.pos < 4294967296) ∧
    (∀ i, i < w.pos ∨ (serializeChunks S l w).2.pos ≤ i →
      (serializeChunks S l w).2.bytes i = w.bytes i) ∧
    (serializeChunks S l w).1.length = (l.length + 4) / 5 ∧
    (serializeChunks S l w).1.head? = some w.pos := by
  intro n
  induction n with
  | zero =>
    intro l w hn hne hw hfit
    cases l with
    | nil => exact absurd rfl hne
    | cons a t => simp at hn
  | succ m ih =>
    intro l w hn hne hw hfit
    cases l with
    | nil => exact absurd rfl hne
    | cons a t =>
    rw [serializeChunks_cons]
    rw [chunksFit_cons] at hfit
    have hfitp := (Bool.and_eq_true _ _).mp hfit
    have hfit1 : (serializeEntries S (w.pos % 4294967296) 0 ((a :: t).take CHUNK_SIZE)
        (writeU32 U32MAX (writePlaceholders CHUNK_SIZE w))).pos < 4294967296 := by
      simpa using hfitp.1
    have hfit2 := hfitp.2
    have hCp := serializeChunk_pos S hS ((a :: t).take CHUNK_SIZE)
      (decide ((a :: t).length ≤ CHUNK_SIZE)) w hfit1
    have hCsz : (serializeChunk S ((a :: t).take CHUNK_SIZE)
        (decide ((a :: t).length ≤ CHUNK_SIZE)) w).pos < 4294967296 := by
      rw [hCp.1]; exact hfit1
    have htake : ((a :: t).take CHUNK_SIZE).length ≤ 5 := by
      rw [List.length_take]
      simp [CHUNK_SIZE]
    by_cases hlast : (a :: t).length ≤ CHUNK_SIZE
    · have hdrop : (a :: t).drop CHUNK_SIZE = [] := List.drop_eq_nil_of_le hlast
      rw [hdrop, serializeChunks_nil]
      refine ⟨⟨hCp.2, hCsz⟩, ?_, ?_, ?_⟩
      · intro i hi
        exact serializeChunk_frame S hS ((a :: t).take CHUNK_SIZE)
          (decide ((a :: t).length ≤ CHUNK_SIZE)) w i htake hw hfit1 hi
      · show 1 = ((a :: t).length + 4) / 5
        have h5 : (a :: t).length ≤ 5 := by simpa [CHUNK_SIZE] using hlast
        have h1 : 1 ≤ (a :: t).length := by simp
        omega
      · show some (w.pos % 4294967296) = some w.pos
        rw [Nat.mod_eq_of_lt hw]
    · have hne2 : (a :: t).drop CHUNK_SIZE ≠ [] := by
        intro hx
        have h5 : (a :: t).length ≤ CHUNK_SIZE := by
          have := List.drop_eq_nil_iff.mp hx
          omega
        exact hlast h5
      have hrec := ih ((a :: t).drop CHUNK_SIZE)
        (serializeChunk S ((a :: t).take CHUNK_SIZE)
          (decide ((a :: t).length ≤ CHUNK_SIZE)) w)
        (by
          rw [List.length_drop]
          simp only [List.length_cons] at hn ⊢
          have hck : CHUNK_SIZE = 5 := rfl
          omega) hne2 hCsz hfit2
      refine ⟨⟨?_, ?_⟩, ?_, ?_, ?_⟩
      · have h1 := hCp.2
        have h2 := hrec.1.1
        show w.pos + 24 ≤ (serializeChunks S ((a :: t).drop CHUNK_SIZE) _).2.pos
        omega
      · exact hrec.1.2
      · intro i hi
        have hi2 : i < w.pos ∨ (serializeChunks S ((a :: t).drop CHUNK_SIZE)
            (serializeChunk S ((a :: t).take CHUNK_SIZE)
              (decide ((a :: t).length ≤ CHUNK_SIZE)) w)).2.pos ≤ i := hi
        have h1 := hrec.1.1
        have h2 := hCp.2
        show (serializeChunks S ((a :: t).drop CHUNK_SIZE)
            (serializeChunk S ((a :: t).take CHUNK_SIZE)
              (decide ((a :: t).length ≤ CHUNK_SIZE)) w)).2.bytes i = w.bytes i
        rw [hrec.2.1 i (by
          rcases hi2 with hi2 | hi2
          · exact Or.inl (by omega)
          · exact Or.inr hi2)]
        exact serializeChunk_frame S hS ((a :: t).take CHUNK_SIZE)
          (decide ((a :: t).length ≤ CHUNK_SIZE)) w i htake hw hfit1
          (by
            rcases hi2 with hi2 | hi2
            · exact Or.inl hi2
            · exact Or.inr (by omega))
      · show ((w.pos % 4294967296) :: (serializeChunks S ((a :: t).drop CHUNK_SIZE) _).1).length
            = ((a :: t).length + 4) / 5
        rw [List.length_cons, hrec.2.2.1, List.length_drop]
        have h6 : CHUNK_SIZE < (a :: t).length := by omega
        have hck : CHUNK_SIZE = 5 := rfl
        omega
      · show some (w.pos % 4294967296) = some w.pos
        rw [Nat.mod_eq_of_lt hw]

theorem serializeChunks_deser {V : Type} (S : CustomSerializeV V)
    (hS : SerializeContract S) :
    ∀ (n : Nat) (l : List (IdentityMapKey × V)) (w : WState),
    l.length ≤ n → l ≠ [] → (∀ p ∈ l, p.1.wellFormed) →
    w.pos < 4294967296 → chunksFit S l w = true →
    ∀ B : Nat → Nat,
    (∀ i, w.pos ≤ i → i < (serializeChunks S l w).2.pos →
      B i = (serializeChunks S l w).2.bytes i) →
    deserChunks S B ((l.length + 4) / 5) w.pos = some l ∧
    (∀ c p q, (serializeChunks S l w).1[c]? = some p →
      (serializeChunks S l w).1[c + 1]? = some q →
      readU32 B (p + CHUNK_SIZE * 4) = q) ∧
    (∀ p, (serializeChunks S l w).1.getLast? = some p →
      readU32 B (p + CHUNK_SIZE * 4) = U32MAX) ∧
    (∀ c p t2, (serializeChunks S l w).1[c]? = some p → t2 < 5 →
      l.length ≤ c * 5 + t2 → readU32 B (p + t2 * 4) = U32MAX) := by
  intro n
  induction n with
  | zero =>
    intro l w hn hne hwf hw hfit B hB
    cases l with
    | nil => exact absurd rfl hne
    | cons a t => simp at hn
  | succ m ih =>
    intro l w hn hne hwf hw hfit B hB
    cases l with
    | nil => exact absurd rfl hne
    | cons a t =>
    have hck : CHUNK_SIZE = 5 := rfl
    rw [chunksFit_cons] at hfit
    have hfitp := (Bool.and_eq_true _ _).mp hfit
    have hfit1 : (serializeEntries S (w.pos % 4294967296) 0 ((a :: t).take CHUNK_SIZE)
        (writeU32 U32MAX (writePlaceholders CHUNK_SIZE w))).pos < 4294967296 := by
      simpa using hfitp.1
    have hfit2 := hfitp.2
    have hCp := serializeChunk_pos S hS ((a :: t).take CHUNK_SIZE)
      (decide ((a :: t).length ≤ CHUNK_SIZE)) w hfit1
    have hCsz : (serializeChunk S ((a :: t).take CHUNK_SIZE)
        (decide ((a :: t).length ≤ CHUNK_SIZE)) w).pos < 4294967296 := by
      rw [hCp.1]; exact hfit1
    have htake : ((a :: t).take CHUNK_SIZE).length ≤ 5 := by
      rw [List.length_take]
      simp [CHUNK_SIZE]
    have hwf2 : ∀ p ∈ (a :: t).take CHUNK_SIZE, p.1.wellFormed :=
      fun p hp => hwf p (List.mem_of_mem_take hp)
    have hmod : w.pos % 4294967296 = w.pos := Nat.mod_eq_of_lt hw
    by_cases hlast : (a :: t).length ≤ CHUNK_SIZE
    · -- single (last) chunk
      have hdrop : (a :: t).drop CHUNK_SIZE = [] := List.drop_eq_nil_of_le hlast
      have htk : (a :: t).take CHUNK_SIZE = a :: t := List.take_of_length_le hlast
      have hfst : (serializeChunks S (a :: t) w).1 = [w.pos % 4294967296] := by
        rw [serializeChunks_cons, hdrop, serializeChunks_nil]
      have hsnd : (serializeChunks S (a :: t) w).2
          = serializeChunk S ((a :: t).take CHUNK_SIZE)
            (decide ((a :: t).length ≤ CHUNK_SIZE)) w := by
        rw [serializeChunks_cons, hdrop, serializeChunks_nil]
      rw [hsnd] at hB
      rw [hfst]
      have hcd := serializeChunk_deser S hS ((a :: t).take CHUNK_SIZE)
        (decide ((a :: t).length ≤ CHUNK_SIZE)) w htake hwf2 hw hfit1 B hB
      obtain ⟨hslots, hlink, hmax⟩ := hcd
      have hdec : decide ((a :: t).length ≤ CHUNK_SIZE) = true := decide_eq_true hlast
      rw [hdec] at hlink
      rw [if_pos rfl] at hlink
      refine ⟨?_, ?_, ?_, ?_⟩
      · have hcount : ((a :: t).length + 4) / 5 = 1 := by
          have h5 : (a :: t).length ≤ 5 := by omega
          have h1 : 1 ≤ (a :: t).length := by simp
          omega
        rw [hcount]
        simp only [deserChunks, hslots]
        rw [hlink]
        rw [if_pos rfl]
        rw [htk]
      · intro c p q hp hq
        cases c with
        | zero => simp at hq
        | succ c2 => simp at hq
      · intro p hp
        simp at hp
        rw [← hp, hmod]
        exact hlink
      · intro c p t2 hp ht2 hlen2
        cases c with
        | zero =>
          simp at hp
          rw [← hp, hmod]
          apply hmax
          · rw [htk]
            omega
          · exact ht2
        | succ c2 => simp at hp
    · -- a chunk followed by more chunks
      have hne2 : (a :: t).drop CHUNK_SIZE ≠ [] := by
        intro hx
        exact hlast (by have := List.drop_eq_nil_iff.mp hx; omega)
      have hwfd : ∀ p ∈ (a :: t).drop CHUNK_SIZE, p.1.wellFormed :=
        fun p hp => hwf p (List.mem_of_mem_drop hp)
      have hlb : ((a :: t).drop CHUNK_SIZE).length ≤ m := by
        rw [List.length_drop]
        simp only [List.length_cons] at hn ⊢
        omega
      have hstate := serializeChunks_state S hS m ((a :: t).drop CHUNK_SIZE)
        (serializeChunk S ((a :: t).take CHUNK_SIZE)
          (decide ((a :: t).length ≤ CHUNK_SIZE)) w) hlb hne2 hCsz hfit2
      have hfst : (serializeChunks S (a :: t) w).1
          = (w.pos % 4294967296) :: (serializeChunks S ((a :: t).drop CHUNK_SIZE)
            (serializeChunk S ((a :: t).take CHUNK_SIZE)
              (decide ((a :: t).length ≤ CHUNK_SIZE)) w)).1 := by
        rw [serializeChunks_cons]
      have hsnd : (serializeChunks S (a :: t) w).2
          = (serializeChunks S ((a :: t).drop CHUNK_SIZE)
            (serializeChunk S ((a :: t).take CHUNK_SIZE)
              (decide ((a :: t).length ≤ CHUNK_SIZE)) w)).2 := by
        rw [serializeChunks_cons]
      rw [hsnd] at hB
      rw [hfst]
      have hBrec : ∀ i, (serializeChunk S ((a :: t).take CHUNK_SIZE)
            (decide ((a :: t).length ≤ CHUNK_SIZE)) w).pos ≤ i →
          i < (serializeChunks S ((a :: t).drop CHUNK_SIZE)
            (serializeChunk S ((a :: t).take CHUNK_SIZE)
              (decide ((a :: t).length ≤ CHUNK_SIZE)) w)).2.pos →
          B i = (serializeChunks S ((a :: t).drop CHUNK_SIZE)
            (serializeChunk S ((a :: t).take CHUNK_SIZE)
              (decide ((a :: t).length ≤ CHUNK_SIZE)) w)).2.bytes i := by
        intro i hi1 hi2
        have h2 := hCp.2
        exact hB i (by omega) hi2
      have hrec := ih ((a :: t).drop CHUNK_SIZE)
        (serializeChunk S ((a :: t).take CHUNK_SIZE)
          (decide ((a :: t).length ≤ CHUNK_SIZE)) w) hlb hne2 hwfd hCsz hfit2 B hBrec
      -- first chunk facts against the final byte store
      have hB1 : ∀ i, w.pos ≤ i →
          i < (serializeChunk S ((a :: t).take CHUNK_SIZE)
            (decide ((a :: t).length ≤ CHUNK_SIZE)) w).pos →
          B i = (serializeChunk S ((a :: t).take CHUNK_SIZE)
            (decide ((a :: t).length ≤ CHUNK_SIZE)) w).bytes i := by
        intro i hi1 hi2
        have h1 := hstate.1.1
        rw [hB i hi1 (by omega)]
        exact hstate.2.1 i (Or.inl hi2)
      have hcd := serializeChunk_deser S hS ((a :: t).take CHUNK_SIZE)
        (decide ((a :: t).length ≤ CHUNK_SIZE)) w htake hwf2 hw hfit1 B hB1
      obtain ⟨hslots, hlink, hmax⟩ := hcd
      have hdec : decide ((a :: t).length ≤ CHUNK_SIZE) = false :=
        decide_eq_false hlast
      rw [hdec] at hlink
      simp only [Bool.false_eq_true, if_false] at hlink
      have hCltMax : (serializeChunk S ((a :: t).take CHUNK_SIZE)
          (decide ((a :: t).length ≤ CHUNK_SIZE)) w).pos ≠ U32MAX := by
        have h1 := hstate.1.1
        have h2 := hstate.1.2
        show _ ≠ 4294967295
        omega
      refine ⟨?_, ?_, ?_, ?_⟩
      · have hcnt : ((a :: t).length + 4) / 5
            = (((a :: t).drop CHUNK_SIZE).length + 4) / 5 + 1 := by
          rw [List.length_drop]
          simp only [List.length_cons] at hlast ⊢
          omega
        rw [hcnt]
        simp only [deserChunks, hslots]
        rw [hlink]
        have hCltMax2 : (serializeChunk S ((a :: t).take CHUNK_SIZE) false w).pos
            ≠ U32MAX := by
          rw [← hdec]
          exact hCltMax
        have hrec1f : deserChunks S B ((( (a :: t).drop CHUNK_SIZE).length + 4) / 5)
            (serializeChunk S ((a :: t).take CHUNK_SIZE) false w).pos
            = some ((a :: t).drop CHUNK_SIZE) := by
          rw [← hdec]
          exact hrec.1
        rw [if_neg hCltMax2, hrec1f]
        show some ((a :: t).take CHUNK_SIZE ++ (a :: t).drop CHUNK_SIZE) = some (a :: t)
        rw [List.take_append_drop]
      · intro c p q hp hq
        cases c with
        | zero =>
          rw [List.getElem?_cons_zero] at hp
          rw [List.getElem?_cons_succ] at hq
          have hp2 : p = w.pos := by
            rw [hmod] at hp
            exact (Option.some_inj.mp hp).symm
          have hq2 : q = (serializeChunk S ((a :: t).take CHUNK_SIZE)
              (decide ((a :: t).length ≤ CHUNK_SIZE)) w).pos := by
            have hh := hstate.2.2.2
            cases hcs : (serializeChunks S ((a :: t).drop CHUNK_SIZE)
                (serializeChunk S ((a :: t).take CHUNK_SIZE)
                  (decide ((a :: t).length ≤ CHUNK_SIZE)) w)).1 with
            | nil =>
              rw [hcs] at hq
              simp at hq
            | cons b u =>
              rw [hcs] at hq
              rw [List.getElem?_cons_zero] at hq
              have hbq : b = q := Option.some_inj.mp hq
              rw [hcs, List.head?_cons] at hh
              have hbw : b = (serializeChunk S ((a :: t).take CHUNK_SIZE)
                  (decide ((a :: t).length ≤ CHUNK_SIZE)) w).pos :=
                Option.some_inj.mp hh
              rw [← hbq, hbw]
          rw [hp2, hq2]
          exact hlink
        | succ c2 =>
          rw [List.getElem?_cons_succ] at hp hq
          exact hrec.2.1 c2 p q hp hq
      · intro p hp
        have hcsne : (serializeChunks S ((a :: t).drop CHUNK_SIZE)
            (serializeChunk S ((a :: t).take CHUNK_SIZE)
              (decide ((a :: t).length ≤ CHUNK_SIZE)) w)).1 ≠ [] := by
          intro hx
          have hh := hstate.2.2.2
          rw [hx] at hh
          exact Option.noConfusion hh
        cases hcs : (serializeChunks S ((a :: t).drop CHUNK_SIZE)
            (serializeChunk S ((a :: t).take CHUNK_SIZE)
              (decide ((a :: t).length ≤ CHUNK_SIZE)) w)).1 with
        | nil => exact absurd hcs hcsne
        | cons b u =>
          rw [hcs] at hp
          rw [List.getLast?_cons_cons] at hp
          apply hrec.2.2.1 p
          rw [hcs]
          exact hp
      · intro c p t2 hp ht2 hlen2
        cases c with
        | zero =>
          simp only [List.length_cons] at hlast hlen2
          omega
        | succ c2 =>
          rw [List.getElem?_cons_succ] at hp
          apply hrec.2.2.2 c2 p t2 hp ht2
          rw [List.length_drop]
          simp only [List.length_cons] at hlen2 ⊢
          omega

theorem from_iter_aux {V : Type} :
    ∀ (es acc : List (IdentityMapKey × V)),
    ((acc ++ es).map Prod.fst).Nodup →
    es.foldl (fun m p => IdentityMap.insert m p.1 p.2) acc = acc ++ es := by
  intro es
  induction es with
  | nil => intro acc h; simp
  | cons kv rest ih =>
    obtain ⟨k, v⟩ := kv
    intro acc h
    have hnd2 := h
    rw [List.map_append, List.nodup_append] at hnd2
    have hnotin : acc.any (fun p => decide (p.1 = k)) = false := by
      rw [List.any_eq_false]
      intro p hp
      simp only [decide_eq_true_eq]
      intro hpk
      have h1 : p.1 ∈ acc.map Prod.fst := List.mem_map.mpr ⟨p, hp, rfl⟩
      have h2 : p.1 ∈ ((k, v) :: rest).map Prod.fst := by
        rw [hpk]
        simp
      exact hnd2.2.2 h1 h2
    have hins : IdentityMap.insert acc k v = acc ++ [(k, v)] := by
      unfold IdentityMap.insert
      rw [hnotin]
      simp
    show rest.foldl (fun m p => IdentityMap.insert m p.1 p.2)
        (IdentityMap.insert acc k v) = acc ++ (k, v) :: rest
    rw [hins, ih (acc ++ [(k, v)]) (by
      rw [List.append_assoc]
      simpa using h)]
    simp

theorem from_iter_nodup {V : Type} (es : List (IdentityMapKey × V))
    (hnd : (es.map Prod.fst).Nodup) : IdentityMap.from_iter es = es := by
  have h := from_iter_aux es [] (by simpa using hnd)
  simpa using h

/-- C1 (amended): for a non-empty `LazyItemMap` with `n` entries whose
keys are well-formed (`Int` below `2^31`, strings shorter than `2^31`
bytes) and pairwise distinct (the map invariant), over any value
serializer obeying the `CustomSerialize` contract, and assuming the
serialized stream stays below `2^32` bytes (the spec's 4 GiB limit):
`serialize` returns the offset of the first chunk (the initial stream
position) leaving the writer at the chunk loop's final state; it emits
`ceil(n/5)` chunks, the first at the returned offset, each with
`CHUNK_SIZE` u32 entry slots (`u32::MAX` in unused slots) followed by one
u32 next-chunk link, the last chunk's link `u32::MAX` and every earlier
link the start of the following chunk; and `deserialize` at the returned
offset reconstructs a map with the same `n` (key, item) pairs in the same
iteration order. An `Int` key with the MSB set breaks the round-trip (see
the counterexample), forcing the well-formedness restriction. -/
theorem lazyItemMap_serialize_spec {V : Type} (S : CustomSerializeV V)
    (hS : SerializeContract S) (m : LazyItemMap V) (w : WState)
    (hne : m.items ≠ [])
    (hwf : ∀ p ∈ m.items, p.1.wellFormed)
    (hnd : (m.items.map Prod.fst).Nodup)
    (hw : w.pos < 4294967296)
    (hfit : chunksFit S m.items w = true) :
    m.serialize S w = (w.pos, (serializeChunks S m.items w).2) ∧
    (serializeChunks S m.items w).1.length = (m.items.length + 4) / 5 ∧
    (serializeChunks S m.items w).1.head? = some w.pos ∧
    (∀ c p q, (serializeChunks S m.items w).1[c]? = some p →
      (serializeChunks S m.items w).1[c + 1]? = some q →
      readU32 ((serializeChunks S m.items w).2).bytes (p + CHUNK_SIZE * 4) = q) ∧
    (∀ p, (serializeChunks S m.items w).1.getLast? = some p →
      readU32 ((serializeChunks S m.items w).2).bytes (p + CHUNK_SIZE * 4) = U32MAX) ∧
    (∀ c p t, (serializeChunks S m.items w).1[c]? = some p → t < 5 →
      m.items.length ≤ c * 5 + t →
      readU32 ((serializeChunks S m.items w).2).bytes (p + t * 4) = U32MAX) ∧
    LazyItemMap.deserialize S ((serializeChunks S m.items w).2).bytes w.pos
      ((m.items.length + 4) / 5) = some m := by
  have hie : m.items.isEmpty = false := by
    cases hmi : m.items with
    | nil => exact absurd hmi hne
    | cons a t => rfl
  have hstate := serializeChunks_state S hS m.items.length m.items w (le_refl _)
    hne hw hfit
  have hdeser := serializeChunks_deser S hS m.items.length m.items w (le_refl _)
    hne hwf hw hfit ((serializeChunks S m.items w).2).bytes (fun i h1 h2 => rfl)
  refine ⟨?_, hstate.2.2.1, hstate.2.2.2, hdeser.2.1, hdeser.2.2.1, hdeser.2.2.2, ?_⟩
  · show (if m.items.isEmpty then (U32MAX, w)
      else (w.pos % 4294967296, (serializeChunks S m.items w).2))
      = (w.pos, (serializeChunks S m.items w).2)
    rw [hie]
    simp only [Bool.false_eq_true, if_false]
    rw [Nat.mod_eq_of_lt hw]
  · have hwne : w.pos ≠ U32MAX := by
      have h1 := hstate.1.1
      have h2 := hstate.1.2
      show w.pos ≠ 4294967295
      omega
    unfold LazyItemMap.deserialize
    rw [if_neg hwne]
    rw [hdeser.1]
    show some (⟨IdentityMap.from_iter m.items⟩ : LazyItemMap V) = some m
    rw [from_iter_nodup m.items hnd]

/-- A minimal instantiation of the value-serializer interface (a one-byte
payload standing in for a serialized lazy item), used to evaluate the map
serializer on concrete inputs. -/
def bitSerializer : CustomSerializeV Bool where
  ser := fun v w => (w.pos % 4294967296, writeByte (if v then 1 else 0) w)
  deser := fun B off => some (decide (B off ≠ 0))

theorem bitSerializer_contract : SerializeContract bitSerializer := by
  constructor
  · intro v w
    exact Nat.mod_lt _ (by norm_num)
  · intro v w
    show w.pos ≤ (writeByte (if v then 1 else 0) w).pos
    rw [writeByte_pos]
    omega
  · intro v w i h
    have h2 : i < w.pos ∨ (writeByte (if v then 1 else 0) w).pos ≤ i := h
    rw [writeByte_pos] at h2
    show (writeByte (if v then 1 else 0) w).bytes i = w.bytes i
    apply writeByte_bytes_ne
    omega
  · intro v w B hw hag
    show some (decide (B (w.pos % 4294967296) ≠ 0)) = some v
    rw [Nat.mod_eq_of_lt hw]
    have h1 : B w.pos = (writeByte (if v then 1 else 0) w).bytes w.pos :=
      hag w.pos (le_refl _)
        (by
          show w.pos < (writeByte (if v then 1 else 0) w).pos
          rw [writeByte_pos]
          omega)
    rw [h1, writeByte_bytes_eq]
    cases v <;> simp

/-- C1 counterexample: a one-entry map keyed by the representable
`Int(2^31)` serializes, but deserializing at the returned offset yields a
map keyed by `String("")` — deserialize misreads the MSB-set u32 as a
string key — so the reconstructed map does not contain the same pairs. -/
theorem lazyItemMap_roundtrip_cex :
    LazyItemMap.deserialize bitSerializer
        (((⟨[(IdentityMapKey.Int 2147483648, true)]⟩ : LazyItemMap Bool).serialize
          bitSerializer ⟨fun _ => 0, 0⟩).2).bytes
        ((⟨[(IdentityMapKey.Int 2147483648, true)]⟩ : LazyItemMap Bool).serialize
          bitSerializer ⟨fun _ => 0, 0⟩).1 1
      = some (⟨[(IdentityMapKey.String [], true)]⟩ : LazyItemMap Bool) ∧
    (⟨[(IdentityMapKey.String [], true)]⟩ : LazyItemMap Bool)
      ≠ (⟨[(IdentityMapKey.Int 2147483648, true)]⟩ : LazyItemMap Bool) := by
  constructor
  · decide
  · decide

/-- Concrete six-entry map (two chunks: 5 + 1) used by the C1 witness. -/
def mapW : LazyItemMap Bool :=
  ⟨[(IdentityMapKey.Int 1, true), (IdentityMapKey.String [104], false),
    (IdentityMapKey.Int 2, true), (IdentityMapKey.Int 3, false),
    (IdentityMapKey.Int 4, true), (IdentityMapKey.Int 5, false)]⟩

/-- Fresh writer used by the C1 witness. -/
def w0 : WState := ⟨fun _ => 0, 0⟩

/-- C1 witness: the chunked-layout theorem applied to a concrete six-entry
map (chunks of 5 and 1) over the one-byte value serializer. -/
theorem lazyItemMap_serialize_spec_witness :
    (mapW.items ≠ [] ∧ (∀ p ∈ mapW.items, p.1.wellFormed) ∧
      (mapW.items.map Prod.fst).Nodup ∧ w0.pos < 4294967296 ∧
      chunksFit bitSerializer mapW.items w0 = true) ∧
    (mapW.serialize bitSerializer w0
        = (w0.pos, (serializeChunks bitSerializer mapW.items w0).2) ∧
      (serializeChunks bitSerializer mapW.items w0).1.length
        = (mapW.items.length + 4) / 5 ∧
      (serializeChunks bitSerializer mapW.items w0).1.head? = some w0.pos ∧
      (∀ c p q, (serializeChunks bitSerializer mapW.items w0).1[c]? = some p →
        (serializeChunks bitSerializer mapW.items w0).1[c + 1]? = some q →
        readU32 ((serializeChunks bitSerializer mapW.items w0).2).bytes
          (p + CHUNK_SIZE * 4) = q) ∧
      (∀ p, (serializeChunks bitSerializer mapW.items w0).1.getLast? = some p →
        readU32 ((serializeChunks bitSerializer mapW.items w0).2).bytes
          (p + CHUNK_SIZE * 4) = U32MAX) ∧
      (∀ c p t, (serializeChunks bitSerializer mapW.items w0).1[c]? = some p →
        t < 5 → mapW.items.length ≤ c * 5 + t →
        readU32 ((serializeChunks bitSerializer mapW.items w0).2).bytes
          (p + t * 4) = U32MAX) ∧
      LazyItemMap.deserialize bitSerializer
        ((serializeChunks bitSerializer mapW.items w0).2).bytes w0.pos
        ((mapW.items.length + 4) / 5) = some mapW) :=
  ⟨⟨by decide, by decide, by decide, by decide, by decide⟩,
    lazyItemMap_serialize_spec bitSerializer bitSerializer_contract mapW w0
      (by decide) (by decide) (by decide) (by decide) (by decide)⟩

end Cosdata
